import Mathlib

/-!
Cascade node graph: dependency and invalidation engine

A shallow embedding of `src/nodebase.cpp` (class `NodeBase`).

Objects live in a heap of `N` nodes; a `NodeBase*` is a `Fin N`, a nullable
pointer is an `Option`.  A `Connection` is stored by value wherever the C++
code stores a `Connection*`, and only the part of it the code reads (the
owners of its two endpoints) is kept.  Qt signals are modelled as a log of the
emitted `nodeRequestUpdate` arguments.  Recursion over the graph is bounded by
fuel; running out of fuel (`none`) stands for the unbounded recursion of the
C++ code on a cyclic graph.
-/

namespace Cascade

/-! ## Data model -/

/-- Modelled from the spec: the enumeration `NodeType` of `nodedefinitions.h`,
which is not among the sources.  `nodebase.cpp` only distinguishes the source
node (`NODE_TYPE_READ`) and the crop node (`NODE_TYPE_CROP`); every other
operation kind is `NODE_TYPE_OTHER k`. -/
inductive NodeType where
  | NODE_TYPE_READ
  | NODE_TYPE_CROP
  | NODE_TYPE_OTHER (k : Nat)
  deriving DecidableEq

/-- Modelled from the spec: the enumeration `NodeOutputType` of
`nodedefinitions.h`; `createOutputs` only tests for `NODE_OUTPUT_TYPE_RGB`. -/
inductive NodeOutputType where
  | NODE_OUTPUT_TYPE_RGB
  | NODE_OUTPUT_TYPE_OTHER (k : Nat)
  deriving DecidableEq

/-- The part of a `NodeOutput` a connection reads: `sourceOutput->parentNode`. -/
structure NodeOutputRef (N : Nat) where
  parentNode : Fin N
  deriving DecidableEq

/-- The part of a `NodeInput` a connection reads: `targetInput->parentNode`. -/
structure NodeInputRef (N : Nat) where
  parentNode : Fin N
  deriving DecidableEq

/-- A `Connection`: a directed edge from `sourceOutput` to `targetInput`. -/
structure Connection (N : Nat) where
  sourceOutput : NodeOutputRef N
  targetInput : NodeInputRef N
  deriving DecidableEq

/-- A `NodeInput`: holds at most one connection (`inConnection`, nullable). -/
structure NodeInput (N : Nat) where
  inConnection : Option (Connection N)
  deriving DecidableEq

/-- A `NodeOutput`: holds the connections that start at it, in order. -/
structure NodeOutput (N : Nat) where
  connections : List (Connection N)
  deriving DecidableEq

/-- Modelled from the spec: `NodeInput::hasConnection` (`nodeinput.cpp` is not
among the sources): an input holds zero or one connection. -/
def NodeInput.hasConnection {N : Nat} (i : NodeInput N) : Bool :=
  i.inConnection.isSome

/-- The accessor `NodeOutput::getConnections`. -/
def NodeOutput.getConnections {N : Nat} (o : NodeOutput N) : List (Connection N) :=
  o.connections

/-- Modelled from the spec: the cached image `CsImage` (`csimage.h` is not among
the sources); `getTargetSize` reads its `int` width and height. -/
structure CsImage where
  width : Int
  height : Int
  deriving DecidableEq

/-- A `QString`, as its list of characters. -/
abbrev QString := List Char

/-- The fields of a `NodeBase` object that the graph logic reads or writes.
`rgbOut` points at one of the node's own outputs and is kept as an index into
`nodeOutputs`; `widgets` holds `getValuesAsString()` of each property widget. -/
structure NodeBase (N : Nat) where
  nodeType : NodeType
  nodeInputs : List (NodeInput N)
  nodeOutputs : List (NodeOutput N)
  rgbOut : Option Nat
  widgets : List QString
  cachedImage : Option CsImage
  needsUpdate : Bool
  leftCrop : Int
  topCrop : Int
  rightCrop : Int
  bottomCrop : Int
  deriving DecidableEq

/-- The heap of nodes together with the log of emitted `nodeRequestUpdate`
signals (oldest first). -/
structure NodeGraph (N : Nat) where
  nodes : Fin N → NodeBase N
  emitted : List (Fin N)

/-- The output `rgbOut` points at, `none` for a null `rgbOut`. -/
def NodeBase.rgbOutput {N : Nat} (nd : NodeBase N) : Option (NodeOutput N) :=
  match nd.rgbOut with
  | none => none
  | some i => nd.nodeOutputs[i]?

/-! ## Machine integers -/

/-- Wrap an integer into the range of a 32-bit `int`. -/
def wrap32 (x : Int) : Int :=
  (x + 2147483648) % 4294967296 - 2147483648

/-- The values of a 32-bit `int`. -/
def InInt32 (x : Int) : Prop :=
  -2147483648 ≤ x ∧ x ≤ 2147483647

instance (x : Int) : Decidable (InInt32 x) := by
  unfold InInt32; infer_instance

/-! ## Construction of outputs -/

/-- The loop of `NodeBase::createOutputs`: one fresh `NodeOutput` is pushed per
entry of `props.nodeOutputs`, and `rgbOut` is set to the output just pushed
whenever the entry is `NODE_OUTPUT_TYPE_RGB`.  The state is the pair
(`nodeOutputs`, `rgbOut`). -/
def createOutputsLoop {N : Nat} :
    List NodeOutputType → List (NodeOutput N) × Option Nat → List (NodeOutput N) × Option Nat
  | [], st => st
  | t :: ts, (outs, rgb) =>
    let outs1 := outs ++ [{ connections := [] }]
    let rgb1 := if t = NodeOutputType.NODE_OUTPUT_TYPE_RGB then some (outs1.length - 1) else rgb
    createOutputsLoop ts (outs1, rgb1)

/-- `NodeBase::createOutputs` on a node under construction. -/
def createOutputs {N : Nat} (nd : NodeBase N) (nodeOutputs : List NodeOutputType) : NodeBase N :=
  let r := createOutputsLoop nodeOutputs (nd.nodeOutputs, nd.rgbOut)
  { nd with nodeOutputs := r.1, rgbOut := r.2 }

/-! ## Upstream traversal -/

/-- `NodeBase::getUpstreamNode`. -/
def getUpstreamNode {N : Nat} (g : NodeGraph N) (self : Fin N) : Option (Fin N) :=
  match (g.nodes self).nodeInputs[0]? with
  | some in0 =>
    if in0.hasConnection then
      match in0.inConnection with
      | some c => some c.sourceOutput.parentNode
      | none => none
    else none
  | none => none

/-- `NodeBase::getAllUpstreamNodes` with a bound on the recursion depth.  The
`std::set` is a `Finset`; `std::merge` of the (empty) local set with the set of
the upstream node, inserted into the local set, is their union. -/
def getAllUpstreamNodesFuel {N : Nat} (g : NodeGraph N) : Nat → Fin N → Option (Finset (Fin N))
  | 0, _ => none
  | fuel + 1, self =>
    let nodes : Finset (Fin N) := ∅
    match getUpstreamNode g self with
    | some n =>
      match getAllUpstreamNodesFuel g fuel n with
      | some add => some (insert self (nodes ∪ add))
      | none => none
    | none => some (insert self nodes)

/-- `NodeBase::getAllUpstreamNodes`: the recursion depth is bounded by the
number of nodes of the graph. -/
def getAllUpstreamNodes {N : Nat} (g : NodeGraph N) (self : Fin N) : Option (Finset (Fin N)) :=
  getAllUpstreamNodesFuel g N self

/-! ## Downstream traversal -/

/-- `NodeBase::getDownstreamNodes(nodes)` with a bound on the recursion depth:
for every connection of `rgbOut`, in order, push the target's owner and then
recurse into it with the same vector. -/
def getDownstreamNodes {N : Nat} (g : NodeGraph N) :
    Nat → Fin N → List (Fin N) → Option (List (Fin N))
  | 0, _, _ => none
  | fuel + 1, self, nodes =>
    match (g.nodes self).rgbOutput with
    | some out =>
      out.getConnections.foldlM
        (fun acc c =>
          getDownstreamNodes g fuel c.targetInput.parentNode
            (acc ++ [c.targetInput.parentNode]))
        nodes
    | none => some nodes

/-- `NodeBase::getAllDownstreamNodes`: start from the empty vector; the
recursion depth is bounded by the number of nodes of the graph. -/
def getAllDownstreamNodes {N : Nat} (g : NodeGraph N) (self : Fin N) : Option (List (Fin N)) :=
  getDownstreamNodes g N self []

/-- The assignment `n->needsUpdate = true`. -/
def setNeedsUpdate {N : Nat} (g : NodeGraph N) (n : Fin N) : NodeGraph N :=
  { g with nodes := Function.update g.nodes n { g.nodes n with needsUpdate := true } }

/-- `NodeBase::invalidateAllDownstreamNodes`. -/
def invalidateAllDownstreamNodes {N : Nat} (g : NodeGraph N) (self : Fin N) :
    Option (NodeGraph N) :=
  match getAllDownstreamNodes g self with
  | some nodes => some (nodes.foldl setNeedsUpdate g)
  | none => none

/-! ## Property values and derived geometry -/

/-- The loop of `NodeBase::getAllPropertyValues`: append each widget's value,
and a comma after every widget but the last. -/
def getAllPropertyValuesLoop : List QString → QString → QString
  | [], vals => vals
  | [w], vals => vals ++ w
  | w :: ws, vals => getAllPropertyValuesLoop ws (vals ++ w ++ [','])

/-- `NodeBase::getAllPropertyValues` (the copy written to `std::cout` is not
modelled). -/
def getAllPropertyValues {N : Nat} (nd : NodeBase N) : QString :=
  getAllPropertyValuesLoop nd.widgets []

/-- Qt's `QString::split(sep)` for a one-character separator, empty parts kept:
the empty string splits into one empty part. -/
def split (sep : Char) : QString → List QString
  | [] => [[]]
  | c :: cs =>
    if c = sep then [] :: split sep cs
    else
      match split sep cs with
      | [] => [[c]]
      | w :: ws => (c :: w) :: ws

/-- Read a run of decimal digits, most significant first, onto `acc`. -/
def parseDigits : List Char → Nat → Option Nat
  | [], acc => some acc
  | c :: cs, acc => if c.isDigit then parseDigits cs (10 * acc + (c.toNat - 48)) else none

/-- An optional sign followed by at least one decimal digit. -/
def parseSigned : List Char → Option Int
  | [] => none
  | '-' :: ds => if ds = [] then none else (parseDigits ds 0).map (fun n => -(n : Int))
  | '+' :: ds => if ds = [] then none else (parseDigits ds 0).map (fun n => (n : Int))
  | ds => (parseDigits ds 0).map (fun n => (n : Int))

/-- Qt's `QChar::isSpace()`: the space, the controls U+0009 to U+000D, U+0085,
U+00A0, and the characters of the Unicode separator categories (Zs, Zl, Zp). -/
def isSpace (c : Char) : Bool :=
  let u := c.toNat
  u == 0x20 || (0x09 ≤ u && u ≤ 0x0d) || u == 0x85 || u == 0xa0 || u == 0x1680
    || (0x2000 ≤ u && u ≤ 0x200a) || u == 0x2028 || u == 0x2029 || u == 0x202f
    || u == 0x205f || u == 0x3000

/-- Qt's `QString::toInt()` in base 10: surrounding white space (`QChar::isSpace`)
is skipped, and the result is 0 when the text is not a number or does not fit
an `int`. -/
def toInt (s : QString) : Int :=
  let t := ((s.dropWhile isSpace).reverse.dropWhile isSpace).reverse
  match parseSigned t with
  | some x => if InInt32 x then x else 0
  | none => 0

/-- `NodeBase::updateCropSizes`.  Indexing the split list out of range has no
defined result in the C++ code and is a failure (`none`) here. -/
def updateCropSizes {N : Nat} (g : NodeGraph N) (self : Fin N) : Option (NodeGraph N) :=
  let vals := split ',' (getAllPropertyValues (g.nodes self))
  match vals[0]?, vals[1]?, vals[2]?, vals[3]? with
  | some v0, some v1, some v2, some v3 =>
    let nd : NodeBase N :=
      { g.nodes self with
        leftCrop := toInt v0, topCrop := toInt v1, rightCrop := toInt v2, bottomCrop := toInt v3 }
    some { g with nodes := Function.update g.nodes self nd }
  | _, _, _, _ => none

/-- A `QSize`. -/
structure QSize where
  width : Int
  height : Int
  deriving DecidableEq

/-- `NodeBase::getTargetSize`, with 32-bit `int` subtraction. -/
def getTargetSize {N : Nat} (g : NodeGraph N) (self : Fin N) : QSize :=
  match getUpstreamNode g self with
  | some upstreamNode =>
    match (g.nodes upstreamNode).cachedImage with
    | some upstreamImage =>
      let w := wrap32 (wrap32 (upstreamImage.width - (g.nodes self).leftCrop)
        - (g.nodes self).rightCrop)
      let h := wrap32 (wrap32 (upstreamImage.height - (g.nodes self).topCrop)
        - (g.nodes self).bottomCrop)
      let w := if w < 0 then 0 else w
      let h := if h < 0 then 0 else h
      { width := w, height := h }
    | none => { width := 0, height := 0 }
  | none => { width := 0, height := 0 }

/-! ## The update protocol -/

/-- The statement `emit nodeRequestUpdate(n)`. -/
def emitNodeRequestUpdate {N : Nat} (g : NodeGraph N) (n : Fin N) : NodeGraph N :=
  { g with emitted := g.emitted ++ [n] }

/-- `NodeBase::requestUpdate`. -/
def requestUpdate {N : Nat} (g : NodeGraph N) (self : Fin N) : Option (NodeGraph N) :=
  let g1 :=
    if (g.nodes self).nodeType = NodeType.NODE_TYPE_CROP then updateCropSizes g self
    else some g
  match g1 with
  | none => none
  | some g1 =>
    let g2 := setNeedsUpdate g1 self
    match invalidateAllDownstreamNodes g2 self with
    | none => none
    | some g3 =>
      if (getUpstreamNode g3 self).isSome
          ∨ (g3.nodes self).nodeType = NodeType.NODE_TYPE_READ then
        some (emitNodeRequestUpdate g3 self)
      else some g3

/-! ## Graph relations used to state the properties -/

/-- The owners of the targets of the connections of `rgbOut`, in order. -/
def rgbTargets {N : Nat} (g : NodeGraph N) (a : Fin N) : List (Fin N) :=
  match (g.nodes a).rgbOutput with
  | some out => out.getConnections.map (fun c => c.targetInput.parentNode)
  | none => []

/-- One step downstream: `b` owns the target of a connection of `a`'s `rgbOut`. -/
def Downstream {N : Nat} (g : NodeGraph N) (a b : Fin N) : Prop :=
  b ∈ rgbTargets g a

/-- One step along any connection: `b` owns the target of a connection of some
output of `a`. -/
def Connected {N : Nat} (g : NodeGraph N) (a b : Fin N) : Prop :=
  ∃ o ∈ (g.nodes a).nodeOutputs, ∃ c ∈ o.connections, c.targetInput.parentNode = b

/-- One step upstream along the primary input (input index 0). -/
def Upstream {N : Nat} (g : NodeGraph N) (a b : Fin N) : Prop :=
  getUpstreamNode g a = some b

/-- The connection relation has no cycle: no node reaches itself by one or more
connections. -/
def Acyclic {N : Nat} (g : NodeGraph N) : Prop :=
  ∀ n, ¬ Relation.TransGen (Connected g) n n

/-- The `rgbOut` connections have no cycle. -/
def RgbAcyclic {N : Nat} (g : NodeGraph N) : Prop :=
  ∀ n, ¬ Relation.TransGen (Downstream g) n n

/-- The primary-input chain has no cycle. -/
def UpstreamAcyclic {N : Nat} (g : NodeGraph N) : Prop :=
  ∀ n, ¬ Relation.TransGen (Upstream g) n n

instance {N : Nat} (g : NodeGraph N) (a b : Fin N) : Decidable (Downstream g a b) := by
  unfold Downstream; infer_instance

instance {N : Nat} (g : NodeGraph N) (a b : Fin N) : Decidable (Connected g a b) := by
  unfold Connected; infer_instance

instance {N : Nat} (g : NodeGraph N) (a b : Fin N) : Decidable (Upstream g a b) := by
  unfold Upstream; infer_instance

/-! ## Predicates on states -/

/-- The graphs `g` and `g1` have the same topology: every node keeps its type,
its inputs, its outputs and its `rgbOut`. -/
def SameWiring {N : Nat} (g g1 : NodeGraph N) : Prop :=
  ∀ m, (g1.nodes m).nodeType = (g.nodes m).nodeType
    ∧ (g1.nodes m).nodeInputs = (g.nodes m).nodeInputs
    ∧ (g1.nodes m).nodeOutputs = (g.nodes m).nodeOutputs
    ∧ (g1.nodes m).rgbOut = (g.nodes m).rgbOut

/-- The property panel of a crop node yields at least the four values that
`updateCropSizes` reads. -/
def CropValuesPresent {N : Nat} (nd : NodeBase N) : Prop :=
  nd.nodeType = NodeType.NODE_TYPE_CROP → 4 ≤ (split ',' (getAllPropertyValues nd)).length

instance {N : Nat} (nd : NodeBase N) : Decidable (CropValuesPresent nd) := by
  unfold CropValuesPresent; infer_instance

/-- The first step of `requestUpdate`: a crop node re-reads its margins. -/
def cropStep {N : Nat} (g : NodeGraph N) (self : Fin N) : Option (NodeGraph N) :=
  if (g.nodes self).nodeType = NodeType.NODE_TYPE_CROP then updateCropSizes g self else some g

/-- The nodes `a`, `b`, `c` form a chain a -> b -> c in which `a` has no
upstream connection. -/
def IsChain {N : Nat} (g : NodeGraph N) (a b c : Fin N) : Prop :=
  getUpstreamNode g a = none ∧ getUpstreamNode g b = some a ∧ getUpstreamNode g c = some b
    ∧ rgbTargets g a = [b] ∧ rgbTargets g b = [c] ∧ rgbTargets g c = []

instance {N : Nat} (g : NodeGraph N) (a b c : Fin N) : Decidable (IsChain g a b c) := by
  unfold IsChain; infer_instance

/-! ## Specification of the downstream walk -/

/-- The sequence pushed while the `foreach` of `getDownstreamNodes` runs over
the targets `ts`, when the recursive call on `t` pushes `D t`. -/
def downstreamOfTargets {N : Nat} (D : Fin N → List (Fin N)) : List (Fin N) → List (Fin N)
  | [] => []
  | t :: ts => t :: D t ++ downstreamOfTargets D ts

/-- The depth-first pre-order listing of what lies downstream of a node, cut
off at depth `fuel`. -/
def downstreamList {N : Nat} (g : NodeGraph N) : Nat → Fin N → List (Fin N)
  | 0, _ => []
  | fuel + 1, n => downstreamOfTargets (downstreamList g fuel) (rgbTargets g n)

/-! ## Example graphs -/

/-- A connection from an output of `a` to an input of `b`. -/
def conn {N : Nat} (a b : Fin N) : Connection N :=
  { sourceOutput := { parentNode := a }, targetInput := { parentNode := b } }

/-- A node with one input, fed from `up` when given, and a single output, which
is its `rgbOut`, connected to the nodes `down` in order. -/
def plainNode {N : Nat} (ty : NodeType) (self : Fin N) (up : Option (Fin N))
    (down : List (Fin N)) (needsUpdate : Bool) : NodeBase N :=
  { nodeType := ty
    nodeInputs := [{ inConnection := up.map (fun u => conn u self) }]
    nodeOutputs := [{ connections := down.map (fun d => conn self d) }]
    rgbOut := some 0
    widgets := []
    cachedImage := none
    needsUpdate := needsUpdate
    leftCrop := 0, topCrop := 0, rightCrop := 0, bottomCrop := 0 }

/-- The chain A -> B -> C (A = 0, B = 1, C = 2); `ty` is the type of A, and no
node is marked dirty. -/
def chainABC (ty : NodeType) : NodeGraph 3 :=
  { nodes := fun i =>
      match i with
      | 0 => plainNode ty 0 none [1] false
      | 1 => plainNode (NodeType.NODE_TYPE_OTHER 0) 1 (some 0) [2] false
      | 2 => plainNode (NodeType.NODE_TYPE_OTHER 0) 2 (some 1) [] false
    emitted := [] }

/-- The chain A -> B -> C -> D (A = 0, B = 1, C = 2, D = 3). -/
def chainABCD : NodeGraph 4 :=
  { nodes := fun i =>
      match i with
      | 0 => plainNode NodeType.NODE_TYPE_READ 0 none [1] false
      | 1 => plainNode (NodeType.NODE_TYPE_OTHER 0) 1 (some 0) [2] false
      | 2 => plainNode (NodeType.NODE_TYPE_OTHER 0) 2 (some 1) [3] false
      | 3 => plainNode (NodeType.NODE_TYPE_OTHER 0) 3 (some 2) [] false
    emitted := [] }

/-- A two-input node: `back` feeds input 0 and `front` feeds input 1. -/
def mergeNode {N : Nat} (self back front : Fin N) (down : List (Fin N)) : NodeBase N :=
  { plainNode (NodeType.NODE_TYPE_OTHER 1) self (some back) down false with
    nodeInputs := [{ inConnection := some (conn back self) },
                   { inConnection := some (conn front self) }] }

/-- The diamond A -> B, A -> C, B -> D, C -> D (A = 0, B = 1, C = 2, D = 3). -/
def diamond : NodeGraph 4 :=
  { nodes := fun i =>
      match i with
      | 0 => plainNode NodeType.NODE_TYPE_READ 0 none [1, 2] false
      | 1 => plainNode (NodeType.NODE_TYPE_OTHER 0) 1 (some 0) [3] false
      | 2 => plainNode (NodeType.NODE_TYPE_OTHER 0) 2 (some 0) [3] false
      | 3 => mergeNode 3 1 2 []
    emitted := [] }

/-- A node under construction: no inputs, no outputs, null `rgbOut`. -/
def blankNode {N : Nat} (ty : NodeType) : NodeBase N :=
  { nodeType := ty
    nodeInputs := []
    nodeOutputs := []
    rgbOut := none
    widgets := []
    cachedImage := none
    needsUpdate := true
    leftCrop := 0, topCrop := 0, rightCrop := 0, bottomCrop := 0 }

/-- A graph of two nodes A = 0 and B = 1.  A has two outputs, of types RGB and
other, so that `createOutputs` leaves `rgbOut` on the first one; the only
connection runs from the second output of A to B. -/
def twoOutputs : NodeGraph 2 :=
  { nodes := fun i =>
      match i with
      | 0 =>
        { createOutputs (blankNode (NodeType.NODE_TYPE_OTHER 0))
            [NodeOutputType.NODE_OUTPUT_TYPE_RGB, NodeOutputType.NODE_OUTPUT_TYPE_OTHER 0] with
          nodeOutputs := [{ connections := [] }, { connections := [conn 0 1] }] }
      | 1 => plainNode (NodeType.NODE_TYPE_OTHER 0) 1 (some 0) [] false
    emitted := [] }

/-- A read node (0) holding a cached image of 1920 x 1080, feeding a crop node
(1) with the given margins. -/
def cropGraph (left top right bottom : Int) : NodeGraph 2 :=
  { nodes := fun i =>
      match i with
      | 0 =>
        { plainNode NodeType.NODE_TYPE_READ 0 none [1] false with
          cachedImage := some { width := 1920, height := 1080 } }
      | 1 =>
        { plainNode NodeType.NODE_TYPE_CROP 1 (some 0) [] false with
          leftCrop := left, topCrop := top, rightCrop := right, bottomCrop := bottom }
    emitted := [] }

/-! ## Consistency of the two ends of a connection -/

/-- The connection held by an input is registered at its source: when an input
of `n` holds a connection, the node owning the connection's source output has
a connection to `n` among those of its outputs. -/
def InputsRegistered {N : Nat} (g : NodeGraph N) : Prop :=
  ∀ (n : Fin N) (i : NodeInput N) (c : Connection N),
    i ∈ (g.nodes n).nodeInputs → i.inConnection = some c →
    Connected g c.sourceOutput.parentNode n

/-! ## Connection paths -/

/-- Follow a path of `rgbOut` connections from `n`: each entry of the path is
the position, in the connection list of the current node's `rgbOut`, of the
connection to take.  The result is the node the path ends at, `none` when a
position does not exist. -/
def followPath {N : Nat} (g : NodeGraph N) : Fin N → List Nat → Option (Fin N)
  | n, [] => some n
  | n, i :: p =>
    match (rgbTargets g n)[i]? with
    | some t => followPath g t p
    | none => none

/-- The paths that start with one of the connections to `ts` (numbered from
`i`), each with the node it ends at: the one-connection path to `t`, then the
paths `P t` continued from `t`, sibling after sibling. -/
def pathsVia {N : Nat} (P : Fin N → List (List Nat × Fin N)) :
    Nat → List (Fin N) → List (List Nat × Fin N)
  | _, [] => []
  | i, t :: ts =>
    (([i], t) :: (P t).map (fun pe => (i :: pe.1, pe.2))) ++ pathsVia P (i + 1) ts

/-- The non-empty paths of at most `fuel` `rgbOut` connections that start at a
node, each with the node it ends at, in lexicographic order. -/
def pathsFrom {N : Nat} (g : NodeGraph N) : Nat → Fin N → List (List Nat × Fin N)
  | 0, _ => []
  | fuel + 1, n => pathsVia (pathsFrom g fuel) 0 (rgbTargets g n)

/-! ## Integer property values -/

/-- The character of a decimal digit. -/
def digitChar (d : Nat) : Char :=
  Char.ofNat (48 + d)

/-- The decimal digits of `n`, least significant first; `fuel` bounds their
number. -/
def digitsLE : Nat → Nat → List Nat
  | 0, _ => []
  | fuel + 1, n => if n < 10 then [n] else (n % 10) :: digitsLE fuel (n / 10)

/-- The decimal text of a natural number, most significant digit first. -/
def digitsString (n : Nat) : QString :=
  ((digitsLE (n + 1) n).map digitChar).reverse

/-- Qt's `QString::number(int)` in base 10, the text an integer property widget
hands out as its value: the decimal digits, after a minus sign for a negative
number. -/
def QString.number (x : Int) : QString :=
  if x < 0 then '-' :: digitsString x.natAbs else digitsString x.toNat

/-- The four crop margins of a node: left, top, right, bottom. -/
def NodeBase.margins {N : Nat} (nd : NodeBase N) : Int × Int × Int × Int :=
  (nd.leftCrop, nd.topCrop, nd.rightCrop, nd.bottomCrop)

/-- A read node (0) holding a cached image of 1920 x 1080, feeding a crop node
(1) whose property panel shows the margins 100, 50, 100, 50 and whose stored
margins are still 0. -/
def cropPanelGraph : NodeGraph 2 :=
  { nodes := fun i =>
      match i with
      | 0 =>
        { plainNode NodeType.NODE_TYPE_READ 0 none [1] false with
          cachedImage := some { width := 1920, height := 1080 } }
      | 1 =>
        { plainNode NodeType.NODE_TYPE_CROP 1 (some 0) [] false with
          widgets := ["100".data, "50".data, "100".data, "50".data] }
    emitted := [] }

/-! ## The update protocol, statement by statement -/

/-- The states `NodeBase::requestUpdate` passes through, in program order. -/
structure UpdateTrace (N : Nat) where
  /-- After the crop branch `if(nodeType == NODE_TYPE_CROP) updateCropSizes();`. -/
  afterCrop : NodeGraph N
  /-- After the assignment `needsUpdate = true;`. -/
  afterSelf : NodeGraph N
  /-- After the call `invalidateAllDownstreamNodes();`. -/
  afterInvalidate : NodeGraph N
  /-- After the guarded `emit nodeRequestUpdate(this);`: the state on return. -/
  afterEmit : NodeGraph N

/-- `NodeBase::requestUpdate`, keeping the state reached after each of its four
statements. -/
def requestUpdateTrace {N : Nat} (g : NodeGraph N) (self : Fin N) : Option (UpdateTrace N) :=
  let g1 :=
    if (g.nodes self).nodeType = NodeType.NODE_TYPE_CROP then updateCropSizes g self
    else some g
  match g1 with
  | none => none
  | some g1 =>
    let g2 := setNeedsUpdate g1 self
    match invalidateAllDownstreamNodes g2 self with
    | none => none
    | some g3 =>
      let g4 :=
        if (getUpstreamNode g3 self).isSome
            ∨ (g3.nodes self).nodeType = NodeType.NODE_TYPE_READ then
          emitNodeRequestUpdate g3 self
        else g3
      some { afterCrop := g1, afterSelf := g2, afterInvalidate := g3, afterEmit := g4 }

/-- A read node (0) holding a cached image of 1920 x 1080, feeding a crop node
(1) whose property panel shows the margins 2147483647, 0, 2147483647, 0. -/
def cropPanelHuge : NodeGraph 2 :=
  { nodes := fun i =>
      match i with
      | 0 =>
        { plainNode NodeType.NODE_TYPE_READ 0 none [1] false with
          cachedImage := some { width := 1920, height := 1080 } }
      | 1 =>
        { plainNode NodeType.NODE_TYPE_CROP 1 (some 0) [] false with
          widgets := ["2147483647".data, "0".data, "2147483647".data, "0".data] }
    emitted := [] }

/-! ## Ranks in an acyclic relation -/

/-- A finite acyclic relation has a rank function that decreases along it and
stays below the number of elements. -/
theorem exists_rank_of_acyclic {N : Nat} (r : Fin N → Fin N → Prop)
    (h : ∀ n, ¬ Relation.TransGen r n n) :
    ∃ rank : Fin N → Nat, (∀ a, rank a < N) ∧ ∀ a b, r a b → rank b < rank a := by
  classical
  refine ⟨fun a => (Finset.univ.filter (fun c => Relation.TransGen r a c)).card, ?_, ?_⟩
  · intro a
    have hlt : (Finset.univ.filter (fun c => Relation.TransGen r a c)).card
        < (Finset.univ : Finset (Fin N)).card := by
      apply Finset.card_lt_card
      rw [Finset.ssubset_iff_of_subset (Finset.filter_subset _ _)]
      exact ⟨a, Finset.mem_univ a, fun ha => h a (Finset.mem_filter.mp ha).2⟩
    simpa using hlt
  · intro a b hab
    apply Finset.card_lt_card
    have hsub : Finset.univ.filter (fun c => Relation.TransGen r b c)
        ⊆ Finset.univ.filter (fun c => Relation.TransGen r a c) := by
      intro c hc
      rw [Finset.mem_filter] at hc ⊢
      exact ⟨hc.1, Relation.TransGen.head hab hc.2⟩
    rw [Finset.ssubset_iff_of_subset hsub]
    refine ⟨b, ?_, fun hb => h b (Finset.mem_filter.mp hb).2⟩
    exact Finset.mem_filter.mpr ⟨Finset.mem_univ b, Relation.TransGen.single hab⟩

/-- A relation that decreases a rank has no cycle. -/
theorem acyclic_of_rank {N : Nat} (r : Fin N → Fin N → Prop) (rank : Fin N → Nat)
    (h : ∀ a b, r a b → rank b < rank a) : ∀ n, ¬ Relation.TransGen r n n := by
  have key : ∀ a b, Relation.TransGen r a b → rank b < rank a := by
    intro a b hab
    induction hab with
    | single h1 => exact h _ _ h1
    | tail _ h2 ih => exact lt_trans (h _ _ h2) ih
  intro n hn
  exact lt_irrefl _ (key n n hn)

/-! ## Facts about the downstream walk -/

/-- A step along `rgbOut` is a step along a connection. -/
theorem Downstream.connected {N : Nat} {g : NodeGraph N} {a b : Fin N}
    (h : Downstream g a b) : Connected g a b := by
  unfold Downstream rgbTargets at h
  unfold Connected
  cases hout : (g.nodes a).rgbOutput with
  | none => simp [hout] at h
  | some out =>
    simp only [hout, NodeOutput.getConnections, List.mem_map] at h
    obtain ⟨c, hc, hcb⟩ := h
    refine ⟨out, ?_, c, hc, hcb⟩
    unfold NodeBase.rgbOutput at hout
    cases hi : (g.nodes a).rgbOut with
    | none => simp [hi] at hout
    | some i =>
      simp only [hi] at hout
      exact List.getElem?_mem hout

/-- An acyclic graph has no cycle of `rgbOut` connections. -/
theorem Acyclic.rgbAcyclic {N : Nat} {g : NodeGraph N} (h : Acyclic g) : RgbAcyclic g := by
  intro n hn
  exact h n (Relation.TransGen.mono (fun _ _ hab => Downstream.connected hab) hn)

/-- Unfolding `getDownstreamNodes` once: a loop over the targets of `rgbOut`. -/
theorem getDownstreamNodes_succ {N : Nat} (g : NodeGraph N) (fuel : Nat) (self : Fin N)
    (nodes : List (Fin N)) :
    getDownstreamNodes g (fuel + 1) self nodes
      = (rgbTargets g self).foldlM
          (fun acc t => getDownstreamNodes g fuel t (acc ++ [t])) nodes := by
  unfold rgbTargets
  rw [getDownstreamNodes]
  cases (g.nodes self).rgbOutput with
  | none => rfl
  | some out => simp only [List.foldlM_map]

/-- The loop over the targets succeeds and pushes `downstreamOfTargets` when
every recursive call does. -/
theorem foldlM_targets {N : Nat} (F : Fin N → List (Fin N) → Option (List (Fin N)))
    (D : Fin N → List (Fin N)) :
    ∀ (ts : List (Fin N)) (acc : List (Fin N)),
      (∀ t ∈ ts, ∀ acc, F t acc = some (acc ++ D t)) →
      ts.foldlM (fun acc t => F t (acc ++ [t])) acc = some (acc ++ downstreamOfTargets D ts) := by
  intro ts
  induction ts with
  | nil => intro acc _; simp [downstreamOfTargets]
  | cons t ts ih =>
    intro acc h
    rw [List.foldlM_cons, h t (List.mem_cons_self t ts)]
    simp only [Option.bind_eq_bind, Option.some_bind]
    rw [ih _ (fun t ht => h t (List.mem_cons_of_mem _ ht))]
    simp [downstreamOfTargets]

/-- With fuel above the rank of the start node the walk returns, and it has
pushed `downstreamList`. -/
theorem getDownstreamNodes_eq {N : Nat} (g : NodeGraph N) (rank : Fin N → Nat)
    (hr : ∀ a b, Downstream g a b → rank b < rank a) :
    ∀ (fuel : Nat) (n : Fin N) (acc : List (Fin N)), rank n < fuel →
      getDownstreamNodes g fuel n acc = some (acc ++ downstreamList g fuel n) := by
  intro fuel
  induction fuel with
  | zero => intro n acc h; exact absurd h (Nat.not_lt_zero _)
  | succ fuel ih =>
    intro n acc h
    rw [getDownstreamNodes_succ, downstreamList]
    apply foldlM_targets (fun t acc => getDownstreamNodes g fuel t acc)
    intro t ht acc1
    exact ih t acc1 (lt_of_lt_of_le (hr n t ht) (Nat.le_of_lt_succ h))

/-- Membership in a `downstreamOfTargets` listing. -/
theorem mem_downstreamOfTargets {N : Nat} (D : Fin N → List (Fin N)) (m : Fin N) :
    ∀ ts : List (Fin N), m ∈ downstreamOfTargets D ts ↔ ∃ t ∈ ts, m = t ∨ m ∈ D t := by
  intro ts
  induction ts with
  | nil => simp [downstreamOfTargets]
  | cons t ts ih =>
    simp only [downstreamOfTargets, List.mem_cons, List.mem_append, ih]
    constructor
    · rintro (h | ⟨t1, ht1, h⟩)
      · exact ⟨t, Or.inl rfl, h⟩
      · exact ⟨t1, Or.inr ht1, h⟩
    · rintro ⟨t1, (rfl | ht1), h⟩
      · exact Or.inl h
      · exact Or.inr ⟨t1, ht1, h⟩

/-- Everything listed lies downstream. -/
theorem reach_of_mem_downstreamList {N : Nat} (g : NodeGraph N) :
    ∀ (fuel : Nat) (n m : Fin N), m ∈ downstreamList g fuel n →
      Relation.TransGen (Downstream g) n m := by
  intro fuel
  induction fuel with
  | zero => intro n m h; simp [downstreamList] at h
  | succ fuel ih =>
    intro n m h
    rw [downstreamList, mem_downstreamOfTargets] at h
    obtain ⟨t, ht, h | h⟩ := h
    · subst h; exact Relation.TransGen.single ht
    · exact Relation.TransGen.head ht (ih t m h)

/-- Everything downstream is listed, once the fuel exceeds the rank. -/
theorem mem_downstreamList_of_reach {N : Nat} (g : NodeGraph N) (rank : Fin N → Nat)
    (hr : ∀ a b, Downstream g a b → rank b < rank a) :
    ∀ (fuel : Nat) (n m : Fin N), rank n < fuel → Relation.TransGen (Downstream g) n m →
      m ∈ downstreamList g fuel n := by
  intro fuel
  induction fuel with
  | zero => intro n m h; exact absurd h (Nat.not_lt_zero _)
  | succ fuel ih =>
    intro n m h hreach
    rw [downstreamList, mem_downstreamOfTargets]
    obtain ⟨t, ht, htm⟩ := Relation.TransGen.head'_iff.mp hreach
    refine ⟨t, ht, ?_⟩
    rcases Relation.reflTransGen_iff_eq_or_transGen.mp htm with h1 | h1
    · exact Or.inl h1
    · exact Or.inr (ih t m (lt_of_lt_of_le (hr n t ht) (Nat.le_of_lt_succ h)) h1)

/-- On a graph without `rgbOut` cycles `getAllDownstreamNodes` returns, and its
result lists exactly the nodes downstream of the start node. -/
theorem getAllDownstreamNodes_spec {N : Nat} (g : NodeGraph N) (h : RgbAcyclic g) (n : Fin N) :
    getAllDownstreamNodes g n = some (downstreamList g N n)
      ∧ ∀ m, m ∈ downstreamList g N n ↔ Relation.TransGen (Downstream g) n m := by
  obtain ⟨rank, hlt, hr⟩ := exists_rank_of_acyclic (Downstream g) h
  refine ⟨?_, fun m => ⟨reach_of_mem_downstreamList g N n m, ?_⟩⟩
  · have := getDownstreamNodes_eq g rank hr N n [] (hlt n)
    simpa [getAllDownstreamNodes] using this
  · exact mem_downstreamList_of_reach g rank hr N n m (hlt n)

/-! ## Frame facts: what the operations leave alone -/

theorem SameWiring.refl {N : Nat} (g : NodeGraph N) : SameWiring g g :=
  fun _ => ⟨rfl, rfl, rfl, rfl⟩

theorem SameWiring.trans {N : Nat} {g g1 g2 : NodeGraph N} (h1 : SameWiring g g1)
    (h2 : SameWiring g1 g2) : SameWiring g g2 := by
  intro m
  obtain ⟨a1, b1, c1, d1⟩ := h1 m
  obtain ⟨a2, b2, c2, d2⟩ := h2 m
  exact ⟨a2.trans a1, b2.trans b1, c2.trans c1, d2.trans d1⟩

theorem SameWiring.rgbOutput {N : Nat} {g g1 : NodeGraph N} (h : SameWiring g g1) (m : Fin N) :
    (g1.nodes m).rgbOutput = (g.nodes m).rgbOutput := by
  obtain ⟨_, _, c, d⟩ := h m
  unfold NodeBase.rgbOutput
  rw [c, d]

theorem SameWiring.getUpstreamNode {N : Nat} {g g1 : NodeGraph N} (h : SameWiring g g1)
    (m : Fin N) : getUpstreamNode g1 m = getUpstreamNode g m := by
  obtain ⟨_, b, _, _⟩ := h m
  unfold Cascade.getUpstreamNode
  rw [b]

theorem SameWiring.rgbTargets {N : Nat} {g g1 : NodeGraph N} (h : SameWiring g g1) (m : Fin N) :
    rgbTargets g1 m = rgbTargets g m := by
  unfold Cascade.rgbTargets
  rw [h.rgbOutput m]

theorem SameWiring.getDownstreamNodes {N : Nat} {g g1 : NodeGraph N} (h : SameWiring g g1) :
    ∀ (fuel : Nat) (n : Fin N) (acc : List (Fin N)),
      getDownstreamNodes g1 fuel n acc = getDownstreamNodes g fuel n acc := by
  intro fuel
  induction fuel with
  | zero => intro n acc; rfl
  | succ fuel ih =>
    intro n acc
    rw [getDownstreamNodes_succ, getDownstreamNodes_succ, h.rgbTargets n]
    congr 1
    funext acc1 t
    exact ih t _

theorem SameWiring.getAllDownstreamNodes {N : Nat} {g g1 : NodeGraph N} (h : SameWiring g g1)
    (n : Fin N) : getAllDownstreamNodes g1 n = getAllDownstreamNodes g n :=
  h.getDownstreamNodes N n []

/-- The node `m` after `n->needsUpdate = true`. -/
theorem setNeedsUpdate_nodes {N : Nat} (g : NodeGraph N) (n m : Fin N) :
    (setNeedsUpdate g n).nodes m
      = if m = n then { g.nodes m with needsUpdate := true } else g.nodes m := by
  unfold setNeedsUpdate
  by_cases h : m = n
  · subst h; simp
  · simp [h]

theorem setNeedsUpdate_emitted {N : Nat} (g : NodeGraph N) (n : Fin N) :
    (setNeedsUpdate g n).emitted = g.emitted := rfl

/-- The node `m` after the loop of `invalidateAllDownstreamNodes` over `l`. -/
theorem foldl_setNeedsUpdate_nodes {N : Nat} (l : List (Fin N)) :
    ∀ (g : NodeGraph N) (m : Fin N),
      (l.foldl setNeedsUpdate g).nodes m
        = if m ∈ l then { g.nodes m with needsUpdate := true } else g.nodes m := by
  induction l with
  | nil => intro g m; simp
  | cons a l ih =>
    intro g m
    rw [List.foldl_cons, ih, setNeedsUpdate_nodes]
    by_cases h1 : m = a
    · subst h1; simp
    · simp [h1]

theorem foldl_setNeedsUpdate_emitted {N : Nat} (l : List (Fin N)) :
    ∀ g : NodeGraph N, (l.foldl setNeedsUpdate g).emitted = g.emitted := by
  induction l with
  | nil => intro g; rfl
  | cons a l ih => intro g; rw [List.foldl_cons, ih, setNeedsUpdate_emitted]

theorem setNeedsUpdate_sameWiring {N : Nat} (g : NodeGraph N) (n : Fin N) :
    SameWiring g (setNeedsUpdate g n) := by
  intro m
  rw [setNeedsUpdate_nodes]
  by_cases h : m = n <;> simp [h]

theorem foldl_setNeedsUpdate_sameWiring {N : Nat} (l : List (Fin N)) (g : NodeGraph N) :
    SameWiring g (l.foldl setNeedsUpdate g) := by
  intro m
  rw [foldl_setNeedsUpdate_nodes]
  by_cases h : m ∈ l <;> simp [h]

/-- What `updateCropSizes` does when it returns: only the four margins of the
node change. -/
theorem updateCropSizes_some {N : Nat} {g g1 : NodeGraph N} {n : Fin N}
    (h : updateCropSizes g n = some g1) :
    ∃ l t r b : Int, g1 = ⟨Function.update g.nodes n
      { g.nodes n with leftCrop := l, topCrop := t, rightCrop := r, bottomCrop := b },
      g.emitted⟩ := by
  unfold updateCropSizes at h
  dsimp only at h
  split at h
  · rename_i v0 v1 v2 v3 _ _ _ _
    exact ⟨toInt v0, toInt v1, toInt v2, toInt v3, (Option.some.inj h).symm⟩
  · exact absurd h (by simp)

/-- The call `updateCropSizes` returns when four values are present. -/
theorem updateCropSizes_isSome {N : Nat} (g : NodeGraph N) (n : Fin N)
    (h : 4 ≤ (split ',' (getAllPropertyValues (g.nodes n))).length) :
    ∃ g1, updateCropSizes g n = some g1 := by
  unfold updateCropSizes
  cases hv : split ',' (getAllPropertyValues (g.nodes n)) with
  | nil => simp [hv] at h
  | cons v0 t0 =>
    cases t0 with
    | nil => simp [hv] at h
    | cons v1 t1 =>
      cases t1 with
      | nil => simp [hv] at h
      | cons v2 t2 =>
        cases t2 with
        | nil => simp [hv] at h
        | cons v3 t3 => simp

/-- When it returns, the first step of `requestUpdate` changes neither the
topology, nor a dirty flag, nor the signal log. -/
theorem cropStep_some {N : Nat} {g g1 : NodeGraph N} {n : Fin N} (h : cropStep g n = some g1) :
    SameWiring g g1 ∧ (∀ m, (g1.nodes m).needsUpdate = (g.nodes m).needsUpdate)
      ∧ g1.emitted = g.emitted := by
  unfold cropStep at h
  split at h
  · obtain ⟨l, t, r, b, rfl⟩ := updateCropSizes_some h
    refine ⟨fun m => ?_, fun m => ?_, rfl⟩
    · by_cases hm : m = n
      · subst hm; simp
      · simp [hm]
    · by_cases hm : m = n
      · subst hm; simp
      · simp [hm]
  · cases h
    exact ⟨SameWiring.refl g, fun _ => rfl, rfl⟩

/-- The first step of `requestUpdate` returns when the crop values are there. -/
theorem cropStep_isSome {N : Nat} (g : NodeGraph N) (n : Fin N)
    (h : CropValuesPresent (g.nodes n)) : ∃ g1, cropStep g n = some g1 := by
  unfold cropStep
  split
  · rename_i hc; exact updateCropSizes_isSome g n (h hc)
  · exact ⟨g, rfl⟩

/-- The result of `requestUpdate`, given the result `g1` of its first step and
the sequence `l` that `getAllDownstreamNodes` returns. -/
theorem requestUpdate_eq {N : Nat} (g g1 : NodeGraph N) (n : Fin N) (l : List (Fin N))
    (hd : getAllDownstreamNodes g n = some l) (h1 : cropStep g n = some g1) :
    requestUpdate g n
      = some (if (getUpstreamNode g n).isSome ∨ (g.nodes n).nodeType = NodeType.NODE_TYPE_READ
          then emitNodeRequestUpdate (l.foldl setNeedsUpdate (setNeedsUpdate g1 n)) n
          else l.foldl setNeedsUpdate (setNeedsUpdate g1 n)) := by
  obtain ⟨hw1, _, _⟩ := cropStep_some h1
  have hw2 : SameWiring g (setNeedsUpdate g1 n) := hw1.trans (setNeedsUpdate_sameWiring g1 n)
  have hw3 : SameWiring g (l.foldl setNeedsUpdate (setNeedsUpdate g1 n)) :=
    hw2.trans (foldl_setNeedsUpdate_sameWiring _ _)
  have hd2 : getAllDownstreamNodes (setNeedsUpdate g1 n) n = some l := by
    rw [hw2.getAllDownstreamNodes]; exact hd
  unfold cropStep at h1
  unfold requestUpdate
  simp only [h1, invalidateAllDownstreamNodes, hd2, hw3.getUpstreamNode n, (hw3 n).1]
  split <;> rfl

/-- The dirty flag of `m` after `requestUpdate`'s marking steps. -/
theorem needsUpdate_after_marking {N : Nat} (g g1 : NodeGraph N) (n m : Fin N)
    (l : List (Fin N)) (h1 : cropStep g n = some g1) :
    ((l.foldl setNeedsUpdate (setNeedsUpdate g1 n)).nodes m).needsUpdate
      = if m ∈ l ∨ m = n then true else (g.nodes m).needsUpdate := by
  obtain ⟨_, hflag, _⟩ := cropStep_some h1
  rw [foldl_setNeedsUpdate_nodes, setNeedsUpdate_nodes]
  by_cases hl : m ∈ l
  · simp [hl]
  · by_cases hn : m = n
    · simp [hl, hn]
    · simp [hl, hn, hflag m]

/-- The signal log after `requestUpdate`'s marking steps. -/
theorem emitted_after_marking {N : Nat} (g g1 : NodeGraph N) (n : Fin N)
    (l : List (Fin N)) (h1 : cropStep g n = some g1) :
    (l.foldl setNeedsUpdate (setNeedsUpdate g1 n)).emitted = g.emitted := by
  obtain ⟨_, _, hem⟩ := cropStep_some h1
  rw [foldl_setNeedsUpdate_emitted, setNeedsUpdate_emitted, hem]

/-- In a chain a -> b -> c the downstream walk from `a` returns `[b, c]`. -/
theorem getAllDownstreamNodes_chain {N : Nat} (g : NodeGraph N) (a b c : Fin N)
    (ha : rgbTargets g a = [b]) (hb : rgbTargets g b = [c]) (hc : rgbTargets g c = []) :
    getAllDownstreamNodes g a = some [b, c] := by
  have hab : a ≠ b := by
    intro e
    rw [e] at ha
    have h2 : [b] = [c] := ha.symm.trans hb
    have h3 : b = c := by simpa using h2
    rw [h3, hc] at hb
    simp at hb
  have hbc : b ≠ c := by
    intro e
    rw [e, hc] at hb
    simp at hb
  have hac : a ≠ c := by
    intro e
    rw [e, hc] at ha
    simp at ha
  have hcard : ({a, b, c} : Finset (Fin N)).card = 3 := by
    rw [Finset.card_insert_of_not_mem, Finset.card_insert_of_not_mem, Finset.card_singleton]
    · simpa using hbc
    · simp [hab, hac]
  have h3 : 3 ≤ N := by
    have := Finset.card_le_univ ({a, b, c} : Finset (Fin N))
    rw [hcard] at this
    simpa using this
  obtain ⟨k, rfl⟩ : ∃ k, N = k + 3 := ⟨N - 3, by omega⟩
  simp [getAllDownstreamNodes, getDownstreamNodes_succ, ha, hb, hc]

/-! ## Facts about the upstream walk -/

/-- With fuel above the rank of the start node, `getAllUpstreamNodes` returns
the set of nodes on the primary-input chain of the start node. -/
theorem getAllUpstreamNodesFuel_spec {N : Nat} (g : NodeGraph N) (rank : Fin N → Nat)
    (hr : ∀ a b, Upstream g a b → rank b < rank a) :
    ∀ (fuel : Nat) (n : Fin N), rank n < fuel →
      ∃ s, getAllUpstreamNodesFuel g fuel n = some s
        ∧ ∀ m, m ∈ s ↔ Relation.ReflTransGen (Upstream g) n m := by
  intro fuel
  induction fuel with
  | zero => intro n h; exact absurd h (Nat.not_lt_zero _)
  | succ fuel ih =>
    intro n h
    rw [getAllUpstreamNodesFuel]
    cases hu : getUpstreamNode g n with
    | none =>
      refine ⟨_, rfl, fun m => ?_⟩
      rw [Relation.ReflTransGen.cases_head_iff]
      constructor
      · intro hm
        left
        simp at hm
        exact hm.symm
      · rintro (rfl | ⟨c, hc, _⟩)
        · simp
        · unfold Upstream at hc
          rw [hu] at hc
          exact absurd hc (by simp)
    | some u =>
      obtain ⟨s, hs, hmem⟩ := ih u (lt_of_lt_of_le (hr n u hu) (Nat.le_of_lt_succ h))
      simp only [hs]
      refine ⟨_, rfl, fun m => ?_⟩
      rw [Relation.ReflTransGen.cases_head_iff]
      simp only [Finset.mem_insert, Finset.empty_union, hmem]
      constructor
      · rintro (rfl | hm)
        · exact Or.inl rfl
        · exact Or.inr ⟨u, hu, hm⟩
      · rintro (rfl | ⟨c, hc, hm⟩)
        · exact Or.inl rfl
        · unfold Upstream at hc
          rw [hu] at hc
          cases hc
          exact Or.inr hm

/-! ## Example graphs are acyclic -/

theorem diamond_acyclic : Acyclic diamond :=
  acyclic_of_rank (Connected diamond) (fun i => 3 - i.val) (by decide)

theorem chainABC_acyclic (ty : NodeType) : Acyclic (chainABC ty) :=
  acyclic_of_rank (Connected (chainABC ty)) (fun i => 2 - i.val) (by
    intro a b
    fin_cases a <;> fin_cases b <;> simp [Connected, chainABC, plainNode, conn])

theorem twoOutputs_acyclic : Acyclic twoOutputs :=
  acyclic_of_rank (Connected twoOutputs) (fun i => 1 - i.val) (by decide)

theorem chainABCD_upstreamAcyclic : UpstreamAcyclic chainABCD :=
  acyclic_of_rank (Upstream chainABCD) (fun i => i.val) (by decide)

/-! ## C1: the downstream walk does not deduplicate -/

/-- C1, refuted as stated: the diamond A -> B, A -> C, B -> D, C -> D is
acyclic and D is reachable from A, yet `getAllDownstreamNodes(A)` returns
`[B, D, C, D]`, in which D occurs twice, not once. -/
theorem getAllDownstreamNodes_diamond_lists_D_twice :
    Acyclic diamond
      ∧ Relation.TransGen (Downstream diamond) 0 3
      ∧ getAllDownstreamNodes diamond 0 = some [1, 3, 2, 3]
      ∧ ([1, 3, 2, 3] : List (Fin 4)).count 3 = 2 := by
  refine ⟨diamond_acyclic, ?_, by decide, by decide⟩
  exact Relation.TransGen.head (b := 1) (by decide) (Relation.TransGen.single (by decide))

/-- C1, amended: on an acyclic graph `getAllDownstreamNodes(n)` returns a
sequence that contains every node reachable from `n` through `rgbOut`
connections at least once, and no other node; it is not deduplicated, and for
the diamond the sequence is `[B, D, C, D]`. -/
theorem getAllDownstreamNodes_mem_iff_reachable {N : Nat} (g : NodeGraph N) (h : Acyclic g)
    (n : Fin N) :
    (∃ l, getAllDownstreamNodes g n = some l
        ∧ ∀ m, m ∈ l ↔ Relation.TransGen (Downstream g) n m)
      ∧ getAllDownstreamNodes diamond 0 = some [1, 3, 2, 3] := by
  obtain ⟨h1, h2⟩ := getAllDownstreamNodes_spec g h.rgbAcyclic n
  exact ⟨⟨_, h1, h2⟩, by decide⟩

/-- C1, amended, at the diamond. -/
theorem getAllDownstreamNodes_mem_iff_reachable_witness :
    Acyclic diamond
      ∧ ((∃ l, getAllDownstreamNodes diamond 0 = some l
          ∧ ∀ m, m ∈ l ↔ Relation.TransGen (Downstream diamond) 0 m)
        ∧ getAllDownstreamNodes diamond 0 = some [1, 3, 2, 3]) :=
  ⟨diamond_acyclic, getAllDownstreamNodes_mem_iff_reachable diamond diamond_acyclic 0⟩

/-! ## C2: requestUpdate marks the node and everything downstream -/

/-- C2, refuted as stated: in `twoOutputs` the only connection runs from the
second output of A to input 0 of B, so B is reachable from A along a connection
and A is the upstream node of B; the graph is acyclic, yet `requestUpdate(A)`
returns with the `needsUpdate` flag of B still false. -/
theorem requestUpdate_leaves_other_output_target_clean :
    Acyclic twoOutputs
      ∧ Relation.TransGen (Connected twoOutputs) 0 1
      ∧ getUpstreamNode twoOutputs 1 = some 0
      ∧ (twoOutputs.nodes 1).needsUpdate = false
      ∧ ∃ g1, requestUpdate twoOutputs 0 = some g1 ∧ (g1.nodes 1).needsUpdate = false := by
  refine ⟨twoOutputs_acyclic, Relation.TransGen.single (by decide), by decide, by decide, ?_⟩
  have h : (requestUpdate twoOutputs 0).map (fun g => (g.nodes 1).needsUpdate)
      = some false := by decide
  cases hr : requestUpdate twoOutputs 0 with
  | none => rw [hr] at h; exact absurd h (by simp)
  | some g1 => rw [hr] at h; exact ⟨g1, rfl, by simpa using h⟩

/-- C2, amended: on an acyclic graph, `requestUpdate(n)` returns, and
afterwards `needsUpdate` is true on `n` and on every node reachable from `n`
through `rgbOut` connections, however many nodes lie in between and whatever
the flags were before.  The topology is the same before and after.  When every
connection of the graph starts at the `rgbOut` of its node, this covers every
node reachable from `n` along connections.  A crop node must have its four
property values, which `updateCropSizes` indexes. -/
theorem requestUpdate_marks_self_and_downstream {N : Nat} (g : NodeGraph N) (h : Acyclic g)
    (n : Fin N) (hc : CropValuesPresent (g.nodes n)) :
    ∃ g1, requestUpdate g n = some g1
      ∧ (g1.nodes n).needsUpdate = true
      ∧ (∀ m, Relation.TransGen (Downstream g) n m → (g1.nodes m).needsUpdate = true)
      ∧ SameWiring g g1
      ∧ ((∀ a b, Connected g a b → Downstream g a b) →
          ∀ m, Relation.TransGen (Connected g) n m → (g1.nodes m).needsUpdate = true) := by
  suffices hmain : ∃ g1, requestUpdate g n = some g1
      ∧ (g1.nodes n).needsUpdate = true
      ∧ (∀ m, Relation.TransGen (Downstream g) n m → (g1.nodes m).needsUpdate = true)
      ∧ SameWiring g g1 by
    obtain ⟨g1, h1, h2, h3, h4⟩ := hmain
    exact ⟨g1, h1, h2, h3, h4, fun hall m hm => h3 m (Relation.TransGen.mono hall hm)⟩
  obtain ⟨hd, hmem⟩ := getAllDownstreamNodes_spec g h.rgbAcyclic n
  obtain ⟨gc, hgc⟩ := cropStep_isSome g n hc
  have hw : SameWiring g ((downstreamList g N n).foldl setNeedsUpdate (setNeedsUpdate gc n)) :=
    ((cropStep_some hgc).1.trans (setNeedsUpdate_sameWiring gc n)).trans
      (foldl_setNeedsUpdate_sameWiring _ _)
  refine ⟨_, requestUpdate_eq g gc n _ hd hgc, ?_, ?_, ?_⟩
  · split
    · show ((List.foldl setNeedsUpdate _ _).nodes n).needsUpdate = true
      rw [needsUpdate_after_marking g gc n n _ hgc]; simp
    · rw [needsUpdate_after_marking g gc n n _ hgc]; simp
  · intro m hm
    have hm1 : m ∈ downstreamList g N n := (hmem m).mpr hm
    split
    · show ((List.foldl setNeedsUpdate _ _).nodes m).needsUpdate = true
      rw [needsUpdate_after_marking g gc n m _ hgc]; simp [hm1]
    · rw [needsUpdate_after_marking g gc n m _ hgc]; simp [hm1]
  · split
    · exact hw
    · exact hw

/-- C2, amended, on the chain A -> B -> C with every flag false beforehand:
`requestUpdate(A)` leaves the flag true on A, B and C. -/
theorem requestUpdate_marks_self_and_downstream_witness :
    (∀ i, ((chainABC (NodeType.NODE_TYPE_OTHER 0)).nodes i).needsUpdate = false)
      ∧ ∃ g1, requestUpdate (chainABC (NodeType.NODE_TYPE_OTHER 0)) 0 = some g1
        ∧ (g1.nodes 0).needsUpdate = true
        ∧ (g1.nodes 1).needsUpdate = true
        ∧ (g1.nodes 2).needsUpdate = true := by
  refine ⟨by decide, ?_⟩
  obtain ⟨g1, h1, h2, h3, _, _⟩ :=
    requestUpdate_marks_self_and_downstream (chainABC (NodeType.NODE_TYPE_OTHER 0))
      (chainABC_acyclic _) 0 (by decide)
  refine ⟨g1, h1, h2, h3 1 ?_, h3 2 ?_⟩
  · exact Relation.TransGen.single (by decide)
  · exact Relation.TransGen.head (b := 1) (by decide) (Relation.TransGen.single (by decide))

/-! ## C3 and C4: when requestUpdate emits a recompute-request -/

/-- C3, refuted as stated: in the chain A -> B -> C whose head A has no
upstream connection and is not a read node, `requestUpdate(A)` returns and
emits no recompute-request at all. -/
theorem requestUpdate_chain_head_emits_nothing :
    IsChain (chainABC (NodeType.NODE_TYPE_OTHER 0)) 0 1 2
      ∧ (chainABC (NodeType.NODE_TYPE_OTHER 0)).emitted = []
      ∧ ∃ g1, requestUpdate (chainABC (NodeType.NODE_TYPE_OTHER 0)) 0 = some g1
        ∧ g1.emitted = [] := by
  refine ⟨by decide, rfl, ?_⟩
  have h : (requestUpdate (chainABC (NodeType.NODE_TYPE_OTHER 0)) 0).map (fun g => g.emitted)
      = some [] := by decide
  cases hr : requestUpdate (chainABC (NodeType.NODE_TYPE_OTHER 0)) 0 with
  | none => rw [hr] at h; exact absurd h (by simp)
  | some g1 => rw [hr] at h; exact ⟨g1, rfl, by simpa using h⟩

/-- C3, amended: in a chain A -> B -> C whose head A has no upstream
connection, `requestUpdate(A)` returns and emits exactly one recompute-request,
carrying A, when A is a read node (`NODE_TYPE_READ`), and none otherwise; it
never emits a request for B or C. -/
theorem requestUpdate_chain_head_emits {N : Nat} (g : NodeGraph N) (a b c : Fin N)
    (hch : IsChain g a b c) (hc : CropValuesPresent (g.nodes a)) :
    ∃ g1, requestUpdate g a = some g1
      ∧ g1.emitted
          = g.emitted ++ (if (g.nodes a).nodeType = NodeType.NODE_TYPE_READ then [a] else []) := by
  obtain ⟨hup, _, _, ha, hb, hcc⟩ := hch
  obtain ⟨gc, hgc⟩ := cropStep_isSome g a hc
  refine ⟨_, requestUpdate_eq g gc a _ (getAllDownstreamNodes_chain g a b c ha hb hcc) hgc, ?_⟩
  by_cases ht : (g.nodes a).nodeType = NodeType.NODE_TYPE_READ
  · simp only [hup, ht, Option.isSome_none, or_true, if_true]
    show (List.foldl setNeedsUpdate _ _).emitted ++ [a] = _
    rw [emitted_after_marking g gc a _ hgc]
  · simp only [hup, ht, Option.isSome_none, or_false, if_false, List.append_nil]
    simp only [Bool.false_eq_true, if_false]
    rw [emitted_after_marking g gc a _ hgc]

/-- C3, amended, on the chain A -> B -> C with a read node at its head: exactly
one request, for A. -/
theorem requestUpdate_chain_head_emits_witness :
    IsChain (chainABC NodeType.NODE_TYPE_READ) 0 1 2
      ∧ ∃ g1, requestUpdate (chainABC NodeType.NODE_TYPE_READ) 0 = some g1
        ∧ g1.emitted = [0] := by
  refine ⟨by decide, ?_⟩
  obtain ⟨g1, h1, h2⟩ :=
    requestUpdate_chain_head_emits (chainABC NodeType.NODE_TYPE_READ) 0 1 2 (by decide) (by decide)
  exact ⟨g1, h1, by rw [h2]; decide⟩

/-- C4: on an acyclic graph `requestUpdate(n)` returns, and the requests it
emits are exactly `[n]` when `n` has a primary upstream connection or is a read
node, and none otherwise: one request at most, never for another node.  A crop
node must have its four property values, which `updateCropSizes` indexes. -/
theorem requestUpdate_emits_iff {N : Nat} (g : NodeGraph N) (h : Acyclic g) (n : Fin N)
    (hc : CropValuesPresent (g.nodes n)) :
    ∃ g1, requestUpdate g n = some g1
      ∧ g1.emitted
          = g.emitted ++
            (if getUpstreamNode g n ≠ none ∨ (g.nodes n).nodeType = NodeType.NODE_TYPE_READ
              then [n] else [])
      ∧ (g1.emitted = g.emitted ++ [n]
          ↔ (getUpstreamNode g n ≠ none ∨ (g.nodes n).nodeType = NodeType.NODE_TYPE_READ)) := by
  obtain ⟨hd, _⟩ := getAllDownstreamNodes_spec g h.rgbAcyclic n
  obtain ⟨gc, hgc⟩ := cropStep_isSome g n hc
  have hcond : ((getUpstreamNode g n).isSome ∨ (g.nodes n).nodeType = NodeType.NODE_TYPE_READ)
      ↔ (getUpstreamNode g n ≠ none ∨ (g.nodes n).nodeType = NodeType.NODE_TYPE_READ) := by
    rw [Option.isSome_iff_ne_none]
  have hem := emitted_after_marking g gc n (downstreamList g N n) hgc
  refine ⟨_, requestUpdate_eq g gc n _ hd hgc, ?_⟩
  by_cases hcase : getUpstreamNode g n ≠ none ∨ (g.nodes n).nodeType = NodeType.NODE_TYPE_READ
  · rw [if_pos (hcond.mpr hcase), if_pos hcase]
    have : (emitNodeRequestUpdate
        ((downstreamList g N n).foldl setNeedsUpdate (setNeedsUpdate gc n)) n).emitted
        = g.emitted ++ [n] := by
      show (List.foldl setNeedsUpdate _ _).emitted ++ [n] = _
      rw [hem]
    exact ⟨this, ⟨fun _ => hcase, fun _ => this⟩⟩
  · rw [if_neg (fun hx => hcase (hcond.mp hx)), if_neg hcase, hem]
    refine ⟨by simp, ⟨fun hx => ?_, fun hx => absurd hx hcase⟩⟩
    have := congrArg List.length hx
    simp at this

/-- C4 on the chain A -> B -> C: B has an upstream connection, and
`requestUpdate(B)` emits one request, for B. -/
theorem requestUpdate_emits_iff_witness :
    ∃ g1, requestUpdate (chainABC (NodeType.NODE_TYPE_OTHER 0)) 1 = some g1
      ∧ g1.emitted = [1] := by
  obtain ⟨g1, h1, h2, _⟩ :=
    requestUpdate_emits_iff (chainABC (NodeType.NODE_TYPE_OTHER 0)) (chainABC_acyclic _) 1
      (by decide)
  exact ⟨g1, h1, by rw [h2]; decide⟩

/-! ## C9: invalidateAllDownstreamNodes only sets dirty flags downstream -/

/-- C9: on an acyclic graph `invalidateAllDownstreamNodes(n)` returns; it sets
`needsUpdate` on every node of `getAllDownstreamNodes(n)`, leaves every other
node, `n` among them, as it was, changes no field of any node other than
`needsUpdate` (so the topology is untouched), and emits no request. -/
theorem invalidateAllDownstreamNodes_frame {N : Nat} (g : NodeGraph N) (h : Acyclic g)
    (n : Fin N) :
    ∃ l g1, getAllDownstreamNodes g n = some l
      ∧ invalidateAllDownstreamNodes g n = some g1
      ∧ (∀ m, m ∈ l → (g1.nodes m).needsUpdate = true)
      ∧ (∀ m, m ∉ l → g1.nodes m = g.nodes m)
      ∧ n ∉ l
      ∧ g1.nodes n = g.nodes n
      ∧ (∀ m, g1.nodes m = { g.nodes m with needsUpdate := (g1.nodes m).needsUpdate })
      ∧ SameWiring g g1
      ∧ g1.emitted = g.emitted := by
  obtain ⟨hd, hmem⟩ := getAllDownstreamNodes_spec g h.rgbAcyclic n
  have hn : n ∉ downstreamList g N n := fun hx => h.rgbAcyclic n ((hmem n).mp hx)
  refine ⟨downstreamList g N n, (downstreamList g N n).foldl setNeedsUpdate g, hd, ?_,
    ?_, ?_, hn, ?_, ?_, foldl_setNeedsUpdate_sameWiring _ _, foldl_setNeedsUpdate_emitted _ _⟩
  · simp [invalidateAllDownstreamNodes, hd]
  · intro m hm
    rw [foldl_setNeedsUpdate_nodes]; simp [hm]
  · intro m hm
    rw [foldl_setNeedsUpdate_nodes]; simp [hm]
  · rw [foldl_setNeedsUpdate_nodes]; simp [hn]
  · intro m
    rw [foldl_setNeedsUpdate_nodes]
    by_cases hm : m ∈ downstreamList g N n <;> simp [hm]

/-- C9 on the chain A -> B -> C, no node dirty beforehand: invalidating from A
marks B and C and leaves A clean. -/
theorem invalidateAllDownstreamNodes_frame_witness :
    ∃ g1, invalidateAllDownstreamNodes (chainABC NodeType.NODE_TYPE_READ) 0 = some g1
      ∧ (g1.nodes 0).needsUpdate = false
      ∧ (g1.nodes 1).needsUpdate = true
      ∧ (g1.nodes 2).needsUpdate = true
      ∧ g1.emitted = [] := by
  obtain ⟨l, g1, hl, h1, h2, _, _, h5, _, _, h8⟩ :=
    invalidateAllDownstreamNodes_frame (chainABC NodeType.NODE_TYPE_READ) (chainABC_acyclic _) 0
  have hl2 : l = [1, 2] := by
    have : getAllDownstreamNodes (chainABC NodeType.NODE_TYPE_READ) 0 = some [1, 2] := by decide
    rw [this] at hl; exact (Option.some.inj hl).symm
  subst hl2
  refine ⟨g1, h1, ?_, h2 1 (by decide), h2 2 (by decide), ?_⟩
  · rw [h5]; decide
  · rw [h8]; rfl

/-! ## C10: only the connections of rgbOut are followed -/

/-- C10, refuted as stated: node A of `twoOutputs` has an RGB output and a
second output, `createOutputs` leaves `rgbOut` on the RGB output, and the only
connection runs from the second output to B.  The graph is acyclic and B is
reachable from A along a connection, yet `getAllDownstreamNodes(A)` is empty. -/
theorem getAllDownstreamNodes_misses_other_outputs :
    Acyclic twoOutputs
      ∧ (twoOutputs.nodes 0).rgbOut = some 0
      ∧ Relation.TransGen (Connected twoOutputs) 0 1
      ∧ getAllDownstreamNodes twoOutputs 0 = some [] :=
  ⟨twoOutputs_acyclic, by decide, Relation.TransGen.single (by decide), by decide⟩

/-- C10, amended: on an acyclic graph every node reachable from `n` by
following the connections of the `rgbOut` output of each node on the way is a
member of `getAllDownstreamNodes(n)`. -/
theorem getAllDownstreamNodes_contains_rgb_reachable {N : Nat} (g : NodeGraph N)
    (h : Acyclic g) (n m : Fin N) (hr : Relation.TransGen (Downstream g) n m) :
    ∃ l, getAllDownstreamNodes g n = some l ∧ m ∈ l := by
  obtain ⟨h1, h2⟩ := getAllDownstreamNodes_spec g h.rgbAcyclic n
  exact ⟨_, h1, (h2 m).mpr hr⟩

/-- C10, amended, on the chain A -> B -> C -> D: D is downstream of A. -/
theorem getAllDownstreamNodes_contains_rgb_reachable_witness :
    Relation.TransGen (Downstream chainABCD) 0 3
      ∧ ∃ l, getAllDownstreamNodes chainABCD 0 = some l ∧ (3 : Fin 4) ∈ l := by
  have hr : Relation.TransGen (Downstream chainABCD) 0 3 :=
    Relation.TransGen.head (b := 1) (by decide)
      (Relation.TransGen.head (b := 2) (by decide) (Relation.TransGen.single (by decide)))
  have hac : Acyclic chainABCD :=
    acyclic_of_rank (Connected chainABCD) (fun i => 3 - i.val) (by decide)
  exact ⟨hr, getAllDownstreamNodes_contains_rgb_reachable chainABCD hac 0 3 hr⟩

/-! ## C5 and C6: the target size -/

/-- Wrapping leaves a value of the 32-bit range alone. -/
theorem wrap32_of_inInt32 (x : Int) (h : InInt32 x) : wrap32 x = x := by
  unfold InInt32 at h
  unfold wrap32
  omega

/-- Clamping at zero is `max 0`. -/
theorem clamp_eq_max (w : Int) : (if w < 0 then 0 else w) = max 0 w := by
  split
  · rw [max_eq_left (by omega)]
  · rw [max_eq_right (by omega)]

/-- C5: when the upstream node of `n` has a cached image of width `W` and
height `H`, and the subtractions stay within 32 bits, `getTargetSize(n)` is
`(max(0, W - left - right), max(0, H - top - bottom))`; neither component is
ever negative. -/
theorem getTargetSize_eq {N : Nat} (g : NodeGraph N) (n u : Fin N) (img : CsImage)
    (hu : getUpstreamNode g n = some u) (hi : (g.nodes u).cachedImage = some img)
    (hw1 : InInt32 (img.width - (g.nodes n).leftCrop))
    (hw2 : InInt32 (img.width - (g.nodes n).leftCrop - (g.nodes n).rightCrop))
    (hh1 : InInt32 (img.height - (g.nodes n).topCrop))
    (hh2 : InInt32 (img.height - (g.nodes n).topCrop - (g.nodes n).bottomCrop)) :
    getTargetSize g n
        = { width := max 0 (img.width - (g.nodes n).leftCrop - (g.nodes n).rightCrop)
            height := max 0 (img.height - (g.nodes n).topCrop - (g.nodes n).bottomCrop) }
      ∧ 0 ≤ (getTargetSize g n).width ∧ 0 ≤ (getTargetSize g n).height := by
  have key : getTargetSize g n
      = { width := max 0 (img.width - (g.nodes n).leftCrop - (g.nodes n).rightCrop)
          height := max 0 (img.height - (g.nodes n).topCrop - (g.nodes n).bottomCrop) } := by
    unfold getTargetSize
    simp only [hu, hi]
    rw [wrap32_of_inInt32 _ hw1, wrap32_of_inInt32 _ hw2, wrap32_of_inInt32 _ hh1,
      wrap32_of_inInt32 _ hh2, clamp_eq_max, clamp_eq_max]
  rw [key]
  exact ⟨rfl, le_max_left _ _, le_max_left _ _⟩

/-- C5 on a 1920 x 1080 upstream image: margins (100, 50, 100, 50) give
1720 x 980, and a left margin of 2000 gives width 0. -/
theorem getTargetSize_eq_witness :
    getTargetSize (cropGraph 100 50 100 50) 1 = { width := 1720, height := 980 }
      ∧ getTargetSize (cropGraph 2000 50 100 50) 1 = { width := 0, height := 980 } := by
  constructor
  · exact (getTargetSize_eq (cropGraph 100 50 100 50) 1 0 { width := 1920, height := 1080 }
      rfl rfl (by decide) (by decide) (by decide) (by decide)).1
  · exact (getTargetSize_eq (cropGraph 2000 50 100 50) 1 0 { width := 1920, height := 1080 }
      rfl rfl (by decide) (by decide) (by decide) (by decide)).1

/-- C6: `getTargetSize(n)` is exactly `(0, 0)` when `n` has no upstream node or
its upstream node has no cached image, whatever the crop margins are. -/
theorem getTargetSize_zero {N : Nat} (g : NodeGraph N) (n : Fin N)
    (h : getUpstreamNode g n = none
      ∨ ∃ u, getUpstreamNode g n = some u ∧ (g.nodes u).cachedImage = none) :
    getTargetSize g n = { width := 0, height := 0 } := by
  unfold getTargetSize
  rcases h with h | ⟨u, hu, hi⟩
  · simp only [h]
  · simp only [hu, hi]

/-- C6 at a crop node with margins set, once without an upstream node and once
below a node that has no cached image. -/
theorem getTargetSize_zero_witness :
    getTargetSize (cropGraph 100 50 100 50) 0 = { width := 0, height := 0 }
      ∧ getTargetSize (chainABC NodeType.NODE_TYPE_READ) 1 = { width := 0, height := 0 } :=
  ⟨getTargetSize_zero (cropGraph 100 50 100 50) 0 (Or.inl rfl),
   getTargetSize_zero (chainABC NodeType.NODE_TYPE_READ) 1 (Or.inr ⟨0, rfl, rfl⟩)⟩

/-! ## C7 and C8: the upstream walk -/

/-- C7: when the primary-input chain has no cycle, `getAllUpstreamNodes(n)`
returns, and its result is exactly the set made of `n` and of the nodes reached
from `n` by following the primary upstream input any number of times. -/
theorem getAllUpstreamNodes_eq_chain {N : Nat} (g : NodeGraph N) (h : UpstreamAcyclic g)
    (n : Fin N) :
    ∃ s, getAllUpstreamNodes g n = some s
      ∧ n ∈ s
      ∧ ∀ m, m ∈ s ↔ Relation.ReflTransGen (Upstream g) n m := by
  obtain ⟨rank, hlt, hr⟩ := exists_rank_of_acyclic (Upstream g) h
  obtain ⟨s, hs, hmem⟩ := getAllUpstreamNodesFuel_spec g rank hr N n (hlt n)
  exact ⟨s, hs, (hmem n).mpr Relation.ReflTransGen.refl, hmem⟩

/-- C7 on the chain A -> B -> C -> D: `getAllUpstreamNodes(D)` is {A, B, C, D}. -/
theorem getAllUpstreamNodes_eq_chain_witness :
    UpstreamAcyclic chainABCD ∧ getAllUpstreamNodes chainABCD 3 = some {0, 1, 2, 3} := by
  refine ⟨chainABCD_upstreamAcyclic, ?_⟩
  obtain ⟨s, hs, _, _⟩ := getAllUpstreamNodes_eq_chain chainABCD chainABCD_upstreamAcyclic 3
  have hval : ∃ t, getAllUpstreamNodes chainABCD 3 = some t
      ∧ ∀ m, m ∈ t ↔ m ∈ ({0, 1, 2, 3} : Finset (Fin 4)) := ⟨_, rfl, by decide⟩
  obtain ⟨t, ht, hmem⟩ := hval
  rw [ht, Finset.ext hmem]

/-- C8: `getUpstreamNode(n)` is the owner of the source output of the
connection held by input 0 of `n` when that input exists and is connected, and
none when `n` has no inputs or input 0 is unconnected.  It is a total function
of the graph and returns no new graph. -/
theorem getUpstreamNode_spec {N : Nat} (g : NodeGraph N) (n : Fin N) :
    (∀ (in0 : NodeInput N) (rest : List (NodeInput N)) (c : Connection N),
        (g.nodes n).nodeInputs = in0 :: rest → in0.inConnection = some c →
        getUpstreamNode g n = some c.sourceOutput.parentNode)
      ∧ ((g.nodes n).nodeInputs = [] → getUpstreamNode g n = none)
      ∧ (∀ (in0 : NodeInput N) (rest : List (NodeInput N)),
        (g.nodes n).nodeInputs = in0 :: rest → in0.inConnection = none →
        getUpstreamNode g n = none) := by
  refine ⟨?_, ?_, ?_⟩
  · intro in0 rest c h1 h2
    simp [getUpstreamNode, h1, h2, NodeInput.hasConnection]
  · intro h1
    simp [getUpstreamNode, h1]
  · intro in0 rest h1 h2
    simp [getUpstreamNode, h1, h2, NodeInput.hasConnection]

/-! ## C11: the walks return on every acyclic graph -/

/-- The listing pushed by the loop depends on the recursive listings of the
targets only. -/
theorem downstreamOfTargets_congr {N : Nat} (D1 D2 : Fin N → List (Fin N)) :
    ∀ ts : List (Fin N), (∀ t ∈ ts, D1 t = D2 t) →
      downstreamOfTargets D1 ts = downstreamOfTargets D2 ts := by
  intro ts
  induction ts with
  | nil => intro _; rfl
  | cons t ts ih =>
    intro h
    simp only [downstreamOfTargets]
    rw [h t (List.mem_cons_self t ts), ih (fun t1 ht1 => h t1 (List.mem_cons_of_mem _ ht1))]

/-- Fuel above the rank of the start node does not change the listing. -/
theorem downstreamList_fuel {N : Nat} (g : NodeGraph N) (rank : Fin N → Nat)
    (hr : ∀ a b, Downstream g a b → rank b < rank a) :
    ∀ (f1 f2 : Nat) (n : Fin N), rank n < f1 → rank n < f2 →
      downstreamList g f1 n = downstreamList g f2 n := by
  intro f1
  induction f1 with
  | zero => intro f2 n h; exact absurd h (Nat.not_lt_zero _)
  | succ f1 ih =>
    intro f2 n h1 h2
    cases f2 with
    | zero => exact absurd h2 (Nat.not_lt_zero _)
    | succ f2 =>
      simp only [downstreamList]
      apply downstreamOfTargets_congr
      intro t ht
      have hlt : rank t < rank n := hr n t ht
      exact ih f2 t (by omega) (by omega)

/-- A primary upstream step runs against a registered connection. -/
theorem Upstream.reverse_connected {N : Nat} {g : NodeGraph N} (hin : InputsRegistered g) {a b : Fin N}
    (h : Upstream g a b) : Connected g b a := by
  unfold Upstream getUpstreamNode at h
  cases h0 : (g.nodes a).nodeInputs[0]? with
  | none => simp [h0] at h
  | some in0 =>
    simp only [h0] at h
    cases hc : in0.inConnection with
    | none => simp [hc, NodeInput.hasConnection] at h
    | some c =>
      simp only [hc, NodeInput.hasConnection, Option.isSome_some, if_true, Option.some.injEq] at h
      rw [← h]
      exact hin a in0 c (List.getElem?_mem h0) hc

/-- On an acyclic graph whose inputs are registered, the primary-input chain
has no cycle. -/
theorem Acyclic.upstreamAcyclic {N : Nat} {g : NodeGraph N} (h : Acyclic g)
    (hin : InputsRegistered g) : UpstreamAcyclic g := by
  intro n hn
  have h1 : Relation.TransGen (Function.swap (Connected g)) n n :=
    Relation.TransGen.mono (fun _ _ hab => Upstream.reverse_connected hin hab) hn
  exact h n (Relation.transGen_swap.mp h1)

/-- C11: on a finite graph whose connection relation is acyclic, the
connection relation is well-founded, and the recursive walks
`getAllUpstreamNodes` (the connections held by inputs being those registered
at the outputs) and `getDownstreamNodes` return for every start node, with the
same result for every recursion bound from the number of nodes on; hence
`getAllDownstreamNodes` and `invalidateAllDownstreamNodes` return too. -/
theorem walks_terminate {N : Nat} (g : NodeGraph N) (h : Acyclic g) (n : Fin N) :
    WellFounded (fun b a => Connected g a b)
      ∧ (InputsRegistered g →
          ∃ s, getAllUpstreamNodes g n = some s
            ∧ ∀ fuel, N ≤ fuel → getAllUpstreamNodesFuel g fuel n = some s)
      ∧ (∃ l, getAllDownstreamNodes g n = some l
          ∧ ∀ fuel acc, N ≤ fuel → getDownstreamNodes g fuel n acc = some (acc ++ l))
      ∧ (∃ g1, invalidateAllDownstreamNodes g n = some g1) := by
  refine ⟨?_, ?_, ?_, ?_⟩
  · obtain ⟨rank, _, hr⟩ := exists_rank_of_acyclic (Connected g) h
    exact Subrelation.wf (fun {b a} hab => hr a b hab) (InvImage.wf rank Nat.lt_wfRel.wf)
  · intro hin
    obtain ⟨rank, hlt, hr⟩ := exists_rank_of_acyclic (Upstream g) (h.upstreamAcyclic hin)
    obtain ⟨s, hs, hmem⟩ := getAllUpstreamNodesFuel_spec g rank hr N n (hlt n)
    refine ⟨s, hs, fun fuel hf => ?_⟩
    obtain ⟨s1, hs1, hmem1⟩ :=
      getAllUpstreamNodesFuel_spec g rank hr fuel n (lt_of_lt_of_le (hlt n) hf)
    rw [hs1, Finset.ext (fun m => (hmem1 m).trans (hmem m).symm)]
  · obtain ⟨rank, hlt, hr⟩ := exists_rank_of_acyclic (Downstream g) h.rgbAcyclic
    refine ⟨downstreamList g N n, (getAllDownstreamNodes_spec g h.rgbAcyclic n).1, ?_⟩
    intro fuel acc hf
    rw [getDownstreamNodes_eq g rank hr fuel n acc (lt_of_lt_of_le (hlt n) hf),
      downstreamList_fuel g rank hr fuel N n (lt_of_lt_of_le (hlt n) hf) (hlt n)]
  · rw [invalidateAllDownstreamNodes, (getAllDownstreamNodes_spec g h.rgbAcyclic n).1]
    exact ⟨_, rfl⟩

/-- C11 on the diamond, from its source A and from its sink D. -/
theorem walks_terminate_witness :
    Acyclic diamond ∧ InputsRegistered diamond
      ∧ (∃ s, getAllUpstreamNodes diamond 3 = some s)
      ∧ (∃ l, getAllDownstreamNodes diamond 0 = some l)
      ∧ (∃ g1, invalidateAllDownstreamNodes diamond 0 = some g1) := by
  have hin : InputsRegistered diamond := by
    have hdec : ∀ (n : Fin 4), ∀ i ∈ (diamond.nodes n).nodeInputs, ∀ c ∈ i.inConnection,
        Connected diamond c.sourceOutput.parentNode n := by decide
    intro n i c hi hc
    exact hdec n i hi c hc
  obtain ⟨_, hup, _, _⟩ := walks_terminate diamond diamond_acyclic 3
  obtain ⟨s, hs, _⟩ := hup hin
  obtain ⟨_, _, ⟨l, hl, _⟩, hinv⟩ := walks_terminate diamond diamond_acyclic 0
  exact ⟨diamond_acyclic, hin, ⟨s, hs⟩, ⟨l, hl⟩, hinv⟩

/-! ## C13: the result is in depth-first pre-order -/

theorem chainABCD_acyclic : Acyclic chainABCD :=
  acyclic_of_rank (Connected chainABCD) (fun i => 3 - i.val) (by decide)

/-- C13: on an acyclic graph `getAllDownstreamNodes(n)` returns the targets of
the connections of `rgbOut`, in the order of the connection list, each one
immediately followed by the whole sequence `getAllDownstreamNodes` returns for
that target, before the next sibling (`downstreamOfTargets D (t :: ts)` is
`t :: D t ++ downstreamOfTargets D ts`). -/
theorem getAllDownstreamNodes_preorder {N : Nat} (g : NodeGraph N) (h : Acyclic g)
    (n : Fin N) :
    ∃ l, getAllDownstreamNodes g n = some l
      ∧ (∀ t ∈ rgbTargets g n, ∃ lt, getAllDownstreamNodes g t = some lt)
      ∧ l = downstreamOfTargets (fun t => (getAllDownstreamNodes g t).getD [])
          (rgbTargets g n) := by
  obtain ⟨rank, hlt, hr⟩ := exists_rank_of_acyclic (Downstream g) h.rgbAcyclic
  refine ⟨downstreamList g N n, (getAllDownstreamNodes_spec g h.rgbAcyclic n).1,
    fun t _ => ⟨_, (getAllDownstreamNodes_spec g h.rgbAcyclic t).1⟩, ?_⟩
  cases N with
  | zero => exact n.elim0
  | succ k =>
    rw [downstreamList]
    apply downstreamOfTargets_congr
    intro t ht
    have h1 : rank t < rank n := hr n t ht
    have h2 : rank n < k + 1 := hlt n
    rw [(getAllDownstreamNodes_spec g h.rgbAcyclic t).1, Option.getD_some]
    exact downstreamList_fuel g rank hr k (k + 1) t (by omega) (hlt t)

/-- C13 on the chain A -> B -> C -> D: `getAllDownstreamNodes(A)` is
`[B, C, D]`, in that order. -/
theorem getAllDownstreamNodes_preorder_witness :
    Acyclic chainABCD ∧ getAllDownstreamNodes chainABCD 0 = some [1, 2, 3] := by
  obtain ⟨l, hl, _, heq⟩ := getAllDownstreamNodes_preorder chainABCD chainABCD_acyclic 0
  have hval : downstreamOfTargets (fun t => (getAllDownstreamNodes chainABCD t).getD [])
      (rgbTargets chainABCD 0) = [1, 2, 3] := by decide
  rw [hval] at heq
  rw [heq] at hl
  exact ⟨chainABCD_acyclic, hl⟩

/-! ## C14: one entry per connection path -/

/-- The end nodes of the enumerated paths are the pushed sequence. -/
theorem map_snd_pathsVia {N : Nat} (P : Fin N → List (List Nat × Fin N)) :
    ∀ (ts : List (Fin N)) (i : Nat),
      (pathsVia P i ts).map Prod.snd
        = downstreamOfTargets (fun t => (P t).map Prod.snd) ts := by
  intro ts
  induction ts with
  | nil => intro i; rfl
  | cons t ts ih =>
    intro i
    simp only [pathsVia, downstreamOfTargets, List.map_append, List.map_cons, List.map_map, ih]
    rfl

/-- The end nodes of the paths from `n`, in order, are `downstreamList`. -/
theorem map_snd_pathsFrom {N : Nat} (g : NodeGraph N) :
    ∀ (fuel : Nat) (n : Fin N),
      (pathsFrom g fuel n).map Prod.snd = downstreamList g fuel n := by
  intro fuel
  induction fuel with
  | zero => intro n; rfl
  | succ fuel ih =>
    intro n
    rw [pathsFrom, downstreamList, map_snd_pathsVia]
    exact downstreamOfTargets_congr _ _ _ (fun t _ => ih t)

/-- Membership in `pathsVia`. -/
theorem mem_pathsVia {N : Nat} (P : Fin N → List (List Nat × Fin N)) (pe : List Nat × Fin N) :
    ∀ (ts : List (Fin N)) (i : Nat),
      pe ∈ pathsVia P i ts ↔
        ∃ j t, ts[j]? = some t
          ∧ (pe = ([i + j], t) ∨ ∃ qe ∈ P t, pe = ((i + j) :: qe.1, qe.2)) := by
  intro ts
  induction ts with
  | nil => intro i; simp [pathsVia]
  | cons t ts ih =>
    intro i
    simp only [pathsVia, List.mem_append, List.mem_cons, List.mem_map, ih]
    constructor
    · rintro ((h | ⟨qe, hqe, h⟩) | ⟨j, t1, hj, h⟩)
      · exact ⟨0, t, by simp, Or.inl (by simpa using h)⟩
      · exact ⟨0, t, by simp, Or.inr ⟨qe, hqe, by simpa using h.symm⟩⟩
      · refine ⟨j + 1, t1, by simpa using hj, ?_⟩
        have e : i + (j + 1) = i + 1 + j := by omega
        rw [e]; exact h
    · rintro ⟨j, t1, hj, h⟩
      cases j with
      | zero =>
        simp only [List.getElem?_cons_zero, Option.some.injEq] at hj
        subst hj
        rcases h with h | ⟨qe, hqe, h⟩
        · exact Or.inl (Or.inl (by simpa using h))
        · exact Or.inl (Or.inr ⟨qe, hqe, by simpa using h.symm⟩)
      | succ j =>
        simp only [List.getElem?_cons_succ] at hj
        have e : i + (j + 1) = i + 1 + j := by omega
        rw [e] at h
        exact Or.inr ⟨j, t1, hj, h⟩

/-- Unfolding `followPath` at a non-empty path. -/
theorem followPath_cons_eq_some {N : Nat} (g : NodeGraph N) (n e : Fin N) (j : Nat)
    (q : List Nat) :
    followPath g n (j :: q) = some e
      ↔ ∃ t, (rgbTargets g n)[j]? = some t ∧ followPath g t q = some e := by
  rw [followPath]
  cases (rgbTargets g n)[j]? with
  | none => simp
  | some t => simp

/-- The enumeration lists exactly the non-empty paths of bounded length. -/
theorem mem_pathsFrom {N : Nat} (g : NodeGraph N) :
    ∀ (fuel : Nat) (n : Fin N) (p : List Nat) (e : Fin N),
      (p, e) ∈ pathsFrom g fuel n
        ↔ p ≠ [] ∧ p.length ≤ fuel ∧ followPath g n p = some e := by
  intro fuel
  induction fuel with
  | zero =>
    intro n p e
    simp only [pathsFrom, List.not_mem_nil, false_iff]
    rintro ⟨h1, h2, _⟩
    exact h1 (List.length_eq_zero.mp (Nat.le_zero.mp h2))
  | succ fuel ih =>
    intro n p e
    rw [pathsFrom, mem_pathsVia]
    constructor
    · rintro ⟨j, t, hj, h | ⟨qe, hqe, h⟩⟩
      · simp only [Nat.zero_add, Prod.mk.injEq] at h
        obtain ⟨rfl, rfl⟩ := h
        refine ⟨by simp, by simp, ?_⟩
        rw [followPath_cons_eq_some]
        exact ⟨e, hj, rfl⟩
      · simp only [Nat.zero_add, Prod.mk.injEq] at h
        obtain ⟨rfl, rfl⟩ := h
        obtain ⟨h1, h2, h3⟩ := (ih t qe.1 qe.2).mp hqe
        refine ⟨by simp, by simpa using h2, ?_⟩
        rw [followPath_cons_eq_some]
        exact ⟨t, hj, h3⟩
    · rintro ⟨h1, h2, h3⟩
      cases p with
      | nil => exact absurd rfl h1
      | cons j q =>
        rw [followPath_cons_eq_some] at h3
        obtain ⟨t, hj, hq⟩ := h3
        refine ⟨j, t, hj, ?_⟩
        cases q with
        | nil =>
          simp only [followPath, Option.some.injEq] at hq
          subst hq
          exact Or.inl (by simp)
        | cons k q =>
          refine Or.inr ⟨(k :: q, e), ?_, by simp⟩
          exact (ih t (k :: q) e).mpr ⟨by simp, by simpa using h2, hq⟩

/-- Paths of `pathsVia` are listed once. -/
theorem nodup_pathsVia {N : Nat} (P : Fin N → List (List Nat × Fin N))
    (hne : ∀ t, ∀ qe ∈ P t, qe.1 ≠ []) (hnd : ∀ t, (P t).Nodup) :
    ∀ (ts : List (Fin N)) (i : Nat), (pathsVia P i ts).Nodup := by
  intro ts
  induction ts with
  | nil => intro i; simp [pathsVia]
  | cons t ts ih =>
    intro i
    rw [pathsVia, List.nodup_append]
    refine ⟨?_, ih (i + 1), ?_⟩
    · rw [List.nodup_cons]
      constructor
      · intro hmem
        rw [List.mem_map] at hmem
        obtain ⟨qe, hqe, h⟩ := hmem
        simp only [Prod.mk.injEq, List.cons.injEq, true_and] at h
        exact hne t qe hqe h.1
      · apply (hnd t).map
        intro a b hab
        simp only [Prod.mk.injEq, List.cons.injEq, true_and] at hab
        exact Prod.ext hab.1 hab.2
    · intro pe h1 h2
      rw [mem_pathsVia] at h2
      obtain ⟨j, t1, _, h2⟩ := h2
      have hhead : pe.1.head? = some (i + 1 + j) := by
        rcases h2 with h2 | ⟨qe, _, h2⟩ <;> rw [h2] <;> rfl
      have hhead1 : pe.1.head? = some i := by
        rw [List.mem_cons, List.mem_map] at h1
        rcases h1 with h1 | ⟨qe, _, h1⟩
        · rw [h1]; rfl
        · rw [← h1]; rfl
      rw [hhead1] at hhead
      simp only [Option.some.injEq] at hhead
      omega

/-- Paths of `pathsFrom` are listed once. -/
theorem nodup_pathsFrom {N : Nat} (g : NodeGraph N) :
    ∀ (fuel : Nat) (n : Fin N), (pathsFrom g fuel n).Nodup := by
  intro fuel
  induction fuel with
  | zero => intro n; simp [pathsFrom]
  | succ fuel ih =>
    intro n
    rw [pathsFrom]
    apply nodup_pathsVia _ _ (fun t => ih t)
    intro t qe hqe
    exact ((mem_pathsFrom g fuel t qe.1 qe.2).mp hqe).1

/-- A path cannot be longer than the rank of its start node. -/
theorem followPath_length_le {N : Nat} (g : NodeGraph N) (rank : Fin N → Nat)
    (hr : ∀ a b, Downstream g a b → rank b < rank a) :
    ∀ (p : List Nat) (n e : Fin N), followPath g n p = some e →
      p.length + rank e ≤ rank n := by
  intro p
  induction p with
  | nil =>
    intro n e h
    simp only [followPath, Option.some.injEq] at h
    subst h; simp
  | cons j q ih =>
    intro n e h
    rw [followPath_cons_eq_some] at h
    obtain ⟨t, hj, hq⟩ := h
    have h1 : rank t < rank n := hr n t (List.getElem?_mem hj)
    have h2 := ih t e hq
    simp only [List.length_cons]
    omega

/-- Counting an end node among the end nodes of listed paths. -/
theorem count_map_snd {N : Nat} (E : List (List Nat × Fin N)) (m : Fin N) :
    (E.map Prod.snd).count m = ((E.filter (fun pe => pe.2 == m)).map Prod.fst).length := by
  rw [List.length_map, List.count, List.countP_map, List.countP_eq_length_filter]
  rfl

/-- A path listed from `n` determines its end node. -/
theorem pathsFrom_fst_inj {N : Nat} (g : NodeGraph N) (fuel : Nat) (n : Fin N)
    (x y : List Nat × Fin N) (hx : x ∈ pathsFrom g fuel n) (hy : y ∈ pathsFrom g fuel n)
    (h : x.1 = y.1) : x = y := by
  have h1 := ((mem_pathsFrom g fuel n x.1 x.2).mp hx).2.2
  have h2 := ((mem_pathsFrom g fuel n y.1 y.2).mp hy).2.2
  rw [h, h2] at h1
  exact Prod.ext h (Option.some.inj h1).symm

/-- C14: on an acyclic graph, with `l` the sequence `getAllDownstreamNodes(n)`
returns: the number of occurrences of `m` in `l` is the number of distinct
non-empty paths of `rgbOut` connections from `n` to `m`; the length of `l` is
the number of all such paths that start at `n`; and `m` occurs in `l` if and
only if it is reachable from `n`.  A path is the list of the positions of its
connections in the connection lists of the nodes it passes. -/
theorem getAllDownstreamNodes_count_eq_paths {N : Nat} (g : NodeGraph N) (h : Acyclic g)
    (n m : Fin N) :
    ∃ l, getAllDownstreamNodes g n = some l
      ∧ (∃ paths : Finset (List Nat),
          (∀ p, p ∈ paths ↔ p ≠ [] ∧ followPath g n p = some m) ∧ l.count m = paths.card)
      ∧ (∃ paths : Finset (List Nat),
          (∀ p, p ∈ paths ↔ p ≠ [] ∧ ∃ e, followPath g n p = some e)
            ∧ l.length = paths.card)
      ∧ (0 < l.count m ↔ Relation.TransGen (Downstream g) n m) := by
  obtain ⟨rank, hlt, hr⟩ := exists_rank_of_acyclic (Downstream g) h.rgbAcyclic
  obtain ⟨hl, hmem⟩ := getAllDownstreamNodes_spec g h.rgbAcyclic n
  have hlen : ∀ p e, followPath g n p = some e → p.length ≤ N := by
    intro p e hp
    have h1 := followPath_length_le g rank hr p n e hp
    have h2 := hlt n
    omega
  have hE : ∀ p e, (p, e) ∈ pathsFrom g N n ↔ p ≠ [] ∧ followPath g n p = some e := by
    intro p e
    rw [mem_pathsFrom]
    exact ⟨fun ⟨h1, _, h3⟩ => ⟨h1, h3⟩, fun ⟨h1, h3⟩ => ⟨h1, hlen p e h3, h3⟩⟩
  have hinj : ∀ x ∈ pathsFrom g N n, ∀ y ∈ pathsFrom g N n, x.1 = y.1 → x = y :=
    fun x hx y hy hxy => pathsFrom_fst_inj g N n x y hx hy hxy
  refine ⟨downstreamList g N n, hl, ?_, ?_, ?_⟩
  · refine ⟨(((pathsFrom g N n).filter (fun pe => pe.2 == m)).map Prod.fst).toFinset, ?_, ?_⟩
    · intro p
      rw [List.mem_toFinset, List.mem_map, ← hE p m]
      constructor
      · rintro ⟨pe, hpe, rfl⟩
        rw [List.mem_filter] at hpe
        have hm : pe.2 = m := by simpa using hpe.2
        rw [← hm]
        exact hpe.1
      · intro hp
        exact ⟨(p, m), List.mem_filter.mpr ⟨hp, by simp⟩, rfl⟩
    · rw [← map_snd_pathsFrom, count_map_snd, List.toFinset_card_of_nodup]
      apply List.Nodup.map_on
      · intro x hx y hy hxy
        exact hinj x (List.mem_filter.mp hx).1 y (List.mem_filter.mp hy).1 hxy
      · exact (nodup_pathsFrom g N n).filter _
  · refine ⟨((pathsFrom g N n).map Prod.fst).toFinset, ?_, ?_⟩
    · intro p
      rw [List.mem_toFinset, List.mem_map]
      constructor
      · rintro ⟨pe, hpe, rfl⟩
        have := (hE pe.1 pe.2).mp hpe
        exact ⟨this.1, pe.2, this.2⟩
      · rintro ⟨h1, e, h2⟩
        exact ⟨(p, e), (hE p e).mpr ⟨h1, h2⟩, rfl⟩
    · rw [← map_snd_pathsFrom, List.length_map, List.toFinset_card_of_nodup, List.length_map]
      exact List.Nodup.map_on hinj (nodup_pathsFrom g N n)
  · rw [List.count_pos_iff]
    exact hmem m

/-- C14 on the diamond: D is listed twice by `getAllDownstreamNodes(A)`, once
for each of the two paths from A to D, and the four entries of the result are
the four paths that start at A. -/
theorem getAllDownstreamNodes_count_eq_paths_witness :
    ∃ l, getAllDownstreamNodes diamond 0 = some l
      ∧ l.count 3 = 2
      ∧ followPath diamond 0 [0, 0] = some 3
      ∧ followPath diamond 0 [1, 0] = some 3
      ∧ ∃ paths : Finset (List Nat),
          (∀ p, p ∈ paths ↔ p ≠ [] ∧ followPath diamond 0 p = some 3) ∧ paths.card = 2 := by
  obtain ⟨l, hl, ⟨paths, hp, hc⟩, _, _⟩ :=
    getAllDownstreamNodes_count_eq_paths diamond diamond_acyclic 0 3
  have hval : getAllDownstreamNodes diamond 0 = some [1, 3, 2, 3] := by decide
  rw [hval] at hl
  have hl2 : l = [1, 3, 2, 3] := (Option.some.inj hl).symm
  subst hl2
  have hc2 : ([1, 3, 2, 3] : List (Fin 4)).count 3 = 2 := by decide
  exact ⟨_, hval, hc2, by decide, by decide, paths, hp, by rw [← hc, hc2]⟩

/-! ## C12: a crop node re-reads its margins first -/

/-- `parseDigits` reads a concatenation part after part. -/
theorem parseDigits_append (xs ys : List Char) :
    ∀ a : Nat, parseDigits (xs ++ ys) a = (parseDigits xs a).bind (parseDigits ys) := by
  induction xs with
  | nil => intro a; rfl
  | cons c xs ih =>
    intro a
    simp only [List.cons_append, parseDigits]
    split
    · exact ih _
    · rfl

/-- A digit character is read back as its digit. -/
theorem parseDigits_digitChar (d : Nat) (hd : d < 10) (v : Nat) :
    parseDigits [digitChar d] v = some (10 * v + d) := by
  have h : (digitChar d).isDigit = true ∧ (digitChar d).toNat - 48 = d := by
    interval_cases d <;> exact ⟨by decide, by decide⟩
  simp [parseDigits, h.1, h.2]

/-- Reading back digits written most significant first. -/
theorem parseDigits_reverse_map (L : List Nat) (hL : ∀ d ∈ L, d < 10) :
    parseDigits ((L.map digitChar).reverse) 0
      = some (L.foldr (fun d a => 10 * a + d) 0) := by
  induction L with
  | nil => rfl
  | cons d L ih =>
    rw [List.map_cons, List.reverse_cons, parseDigits_append,
      ih (fun x hx => hL x (List.mem_cons_of_mem _ hx))]
    simp only [Option.some_bind, List.foldr_cons]
    exact parseDigits_digitChar d (hL d (List.mem_cons_self d L)) _

/-- The digits of `n` are digits, there is at least one, and they add up to `n`. -/
theorem digitsLE_spec :
    ∀ (fuel n : Nat), n < fuel →
      (∀ d ∈ digitsLE fuel n, d < 10) ∧ digitsLE fuel n ≠ []
        ∧ (digitsLE fuel n).foldr (fun d a => 10 * a + d) 0 = n := by
  intro fuel
  induction fuel with
  | zero => intro n h; exact absurd h (Nat.not_lt_zero _)
  | succ fuel ih =>
    intro n h
    rw [digitsLE]
    split
    · rename_i hn
      refine ⟨fun d hd => ?_, by simp, by simp⟩
      simp only [List.mem_singleton] at hd
      omega
    · rename_i hn
      obtain ⟨h1, _, h3⟩ := ih (n / 10) (by omega)
      refine ⟨fun d hd => ?_, by simp, ?_⟩
      · rw [List.mem_cons] at hd
        rcases hd with hd | hd
        · omega
        · exact h1 d hd
      · rw [List.foldr_cons, h3]
        omega

/-- The decimal text of `n` reads back as `n`. -/
theorem parseDigits_digitsString (n : Nat) : parseDigits (digitsString n) 0 = some n := by
  obtain ⟨h1, _, h3⟩ := digitsLE_spec (n + 1) n (Nat.lt_succ_self n)
  rw [digitsString, parseDigits_reverse_map _ h1, h3]

/-- The decimal text of `n` is a non-empty run of digit characters. -/
theorem digitsString_chars (n : Nat) :
    digitsString n ≠ [] ∧ ∀ c ∈ digitsString n, ∃ d, d < 10 ∧ c = digitChar d := by
  obtain ⟨h1, h2, _⟩ := digitsLE_spec (n + 1) n (Nat.lt_succ_self n)
  constructor
  · simpa [digitsString] using h2
  · intro c hc
    simp only [digitsString, List.mem_reverse, List.mem_map] at hc
    obtain ⟨d, hd, rfl⟩ := hc
    exact ⟨d, h1 d hd, rfl⟩

/-- A digit character is no white space, sign or comma. -/
theorem digitChar_plain (d : Nat) (hd : d < 10) :
    isSpace (digitChar d) = false ∧ digitChar d ≠ '-' ∧ digitChar d ≠ '+'
      ∧ digitChar d ≠ ',' := by
  interval_cases d <;> exact ⟨by decide, by decide, by decide, by decide⟩

/-- Nothing is dropped from a list whose elements all fail the test. -/
theorem dropWhile_eq_self (p : Char → Bool) (s : List Char) (h : ∀ c ∈ s, p c = false) :
    s.dropWhile p = s := by
  cases s with
  | nil => rfl
  | cons c cs =>
    rw [List.dropWhile_cons]
    simp [h c (List.mem_cons_self c cs)]

/-- The text of an integer has no white space and no comma. -/
theorem number_chars (x : Int) :
    ∀ c ∈ QString.number x, isSpace c = false ∧ c ≠ ',' := by
  intro c hc
  have hdig : ∀ n, c ∈ digitsString n → isSpace c = false ∧ c ≠ ',' := by
    intro n hn
    obtain ⟨d, hd, rfl⟩ := (digitsString_chars n).2 c hn
    exact ⟨(digitChar_plain d hd).1, (digitChar_plain d hd).2.2.2⟩
  unfold QString.number at hc
  split at hc
  · rw [List.mem_cons] at hc
    rcases hc with rfl | hc
    · exact ⟨by decide, by decide⟩
    · exact hdig _ hc
  · exact hdig _ hc

/-- The text of a natural number, read with an optional sign. -/
theorem parseSigned_digitsString (n : Nat) : parseSigned (digitsString n) = some (n : Int) := by
  obtain ⟨hne, hch⟩ := digitsString_chars n
  have hp := parseDigits_digitsString n
  cases hs : digitsString n with
  | nil => exact absurd hs hne
  | cons c cs =>
    rw [hs] at hp hch
    obtain ⟨d, hd, hcd⟩ := hch c (List.mem_cons_self c cs)
    have h1 : c ≠ '-' := hcd ▸ (digitChar_plain d hd).2.1
    have h2 : c ≠ '+' := hcd ▸ (digitChar_plain d hd).2.2.1
    unfold parseSigned
    split
    · rename_i heq; exact absurd heq (by simp)
    · rename_i ds heq
      exact absurd (List.cons.inj heq).1 h1
    · rename_i ds heq
      exact absurd (List.cons.inj heq).1 h2
    · rw [hp]; rfl

/-- Reading back the text of a 32-bit integer gives the integer. -/
theorem toInt_number (x : Int) (hx : InInt32 x) : toInt (QString.number x) = x := by
  have htrim : (((QString.number x).dropWhile isSpace).reverse.dropWhile
      isSpace).reverse = QString.number x := by
    rw [dropWhile_eq_self _ _ (fun c hc => (number_chars x c hc).1),
      dropWhile_eq_self _ _ (fun c hc => (number_chars x c (List.mem_reverse.mp hc)).1),
      List.reverse_reverse]
  have hparse : parseSigned (QString.number x) = some x := by
    unfold QString.number
    split
    · rename_i hneg
      have hne := (digitsString_chars x.natAbs).1
      rw [parseSigned]
      · simp only [hne, if_false, parseDigits_digitsString]
        show some (-((x.natAbs : Nat) : Int)) = some x
        congr 1
        omega
    · rename_i hpos
      rw [parseSigned_digitsString]
      congr 1
      omega
  unfold toInt
  simp only [htrim, hparse, hx, if_true]

/-- Splitting a text without separator gives the text itself. -/
theorem split_of_not_mem (sep : Char) :
    ∀ a : List Char, sep ∉ a → split sep a = [a] := by
  intro a
  induction a with
  | nil => intro _; rfl
  | cons c a ih =>
    intro h
    have hc : c ≠ sep := fun e => h (e ▸ List.mem_cons_self c a)
    have ha : sep ∉ a := fun e => h (List.mem_cons_of_mem c e)
    rw [split, if_neg hc, ih ha]

/-- Splitting cuts at the first separator. -/
theorem split_append_sep (sep : Char) (rest : List Char) :
    ∀ a : List Char, sep ∉ a → split sep (a ++ sep :: rest) = a :: split sep rest := by
  intro a
  induction a with
  | nil => intro _; simp [split]
  | cons c a ih =>
    intro h
    have hc : c ≠ sep := fun e => h (e ▸ List.mem_cons_self c a)
    have ha : sep ∉ a := fun e => h (List.mem_cons_of_mem c e)
    rw [List.cons_append, split, if_neg hc, ih ha]

/-- The values `updateCropSizes` reads from a panel of four integers. -/
theorem split_four_numbers {N : Nat} (nd : NodeBase N) (l t r b : Int)
    (hw : nd.widgets = [QString.number l, QString.number t, QString.number r,
      QString.number b]) :
    split ',' (getAllPropertyValues nd)
      = [QString.number l, QString.number t, QString.number r, QString.number b] := by
  have hno : ∀ x : Int, ',' ∉ QString.number x :=
    fun x hx => (number_chars x ',' hx).2 rfl
  have hval : getAllPropertyValues nd
      = QString.number l ++ ',' :: (QString.number t ++ ',' :: (QString.number r
          ++ ',' :: QString.number b)) := by
    simp [getAllPropertyValues, hw, getAllPropertyValuesLoop]
  rw [hval, split_append_sep _ _ _ (hno l), split_append_sep _ _ _ (hno t),
    split_append_sep _ _ _ (hno r), split_of_not_mem _ _ (hno b)]

/-- The first step of `requestUpdate` on a crop node whose panel shows four
32-bit integers: the node's margins become those integers. -/
theorem cropStep_four_numbers {N : Nat} (g : NodeGraph N) (n : Fin N) (l t r b : Int)
    (hty : (g.nodes n).nodeType = NodeType.NODE_TYPE_CROP)
    (hw : (g.nodes n).widgets = [QString.number l, QString.number t, QString.number r,
      QString.number b])
    (hl : InInt32 l) (ht : InInt32 t) (hr : InInt32 r) (hb : InInt32 b) :
    ∃ gc, cropStep g n = some gc ∧ (gc.nodes n).margins = (l, t, r, b)
      ∧ ∀ m, (gc.nodes m).cachedImage = (g.nodes m).cachedImage := by
  have hs := split_four_numbers (g.nodes n) l t r b hw
  refine ⟨⟨Function.update g.nodes n
    { g.nodes n with leftCrop := l, topCrop := t, rightCrop := r, bottomCrop := b },
    g.emitted⟩, ?_, ?_, ?_⟩
  · rw [cropStep, if_pos hty, updateCropSizes]
    simp only [hs, List.getElem?_cons_zero, List.getElem?_cons_succ, toInt_number _ hl,
      toInt_number _ ht, toInt_number _ hr, toInt_number _ hb]
  · simp [NodeBase.margins]
  · intro m
    by_cases hm : m = n
    · subst hm; simp
    · simp [hm]

/-- Marking nodes dirty changes neither margins nor cached images. -/
theorem marking_keeps_geometry {N : Nat} (gc : NodeGraph N) (n : Fin N) (dl : List (Fin N))
    (m : Fin N) :
    ((dl.foldl setNeedsUpdate (setNeedsUpdate gc n)).nodes m).margins = (gc.nodes m).margins
      ∧ ((dl.foldl setNeedsUpdate (setNeedsUpdate gc n)).nodes m).cachedImage
          = (gc.nodes m).cachedImage := by
  rw [foldl_setNeedsUpdate_nodes, setNeedsUpdate_nodes]
  by_cases h1 : m ∈ dl <;> by_cases h2 : m = n <;> simp [h1, h2, NodeBase.margins]

/-- The nodes after `requestUpdate`: those of its first step, marked. -/
theorem requestUpdate_nodes {N : Nat} (g gc : NodeGraph N) (n : Fin N) (dl : List (Fin N))
    (hd : getAllDownstreamNodes g n = some dl) (h1 : cropStep g n = some gc) :
    ∃ g1, requestUpdate g n = some g1
      ∧ g1.nodes = (dl.foldl setNeedsUpdate (setNeedsUpdate gc n)).nodes := by
  refine ⟨_, requestUpdate_eq g gc n dl hd h1, ?_⟩
  split <;> rfl

/-- The target size in terms of the stored margins, without 32-bit overflow. -/
theorem getTargetSize_of_margins {N : Nat} (g : NodeGraph N) (n u : Fin N) (img : CsImage)
    (l t r b : Int) (hu : getUpstreamNode g n = some u)
    (hi : (g.nodes u).cachedImage = some img) (hm : (g.nodes n).margins = (l, t, r, b))
    (hw1 : InInt32 (img.width - l)) (hw2 : InInt32 (img.width - l - r))
    (hh1 : InInt32 (img.height - t)) (hh2 : InInt32 (img.height - t - b)) :
    getTargetSize g n
      = { width := max 0 (img.width - l - r), height := max 0 (img.height - t - b) } := by
  simp only [NodeBase.margins, Prod.mk.injEq] at hm
  obtain ⟨e1, e2, e3, e4⟩ := hm
  unfold getTargetSize
  simp only [hu, hi, e1, e2, e3, e4]
  rw [wrap32_of_inInt32 _ hw1, wrap32_of_inInt32 _ hw2, wrap32_of_inInt32 _ hh1,
    wrap32_of_inInt32 _ hh2, clamp_eq_max, clamp_eq_max]

theorem cropPanelGraph_acyclic : Acyclic cropPanelGraph :=
  acyclic_of_rank (Connected cropPanelGraph) (fun i => 1 - i.val) (by decide)

theorem cropPanelHuge_acyclic : Acyclic cropPanelHuge :=
  acyclic_of_rank (Connected cropPanelHuge) (fun i => 1 - i.val) (by decide)

/-- The state `requestUpdate` returns is the last state of its trace. -/
theorem requestUpdate_eq_trace {N : Nat} (g : NodeGraph N) (n : Fin N) :
    requestUpdate g n = (requestUpdateTrace g n).map (fun tr => tr.afterEmit) := by
  unfold requestUpdate requestUpdateTrace
  dsimp only
  generalize (if (g.nodes n).nodeType = NodeType.NODE_TYPE_CROP then updateCropSizes g n
    else some g) = c
  cases c with
  | none => rfl
  | some g1 =>
    dsimp only
    cases invalidateAllDownstreamNodes (setNeedsUpdate g1 n) n with
    | none => rfl
    | some g3 =>
      dsimp only [Option.map]
      split <;> rfl

/-- The trace of `requestUpdate`, given the state `gc` its crop branch reaches
and the sequence `dl` that `getAllDownstreamNodes` returns: the later states
are obtained from `gc` by marking, then by the guarded emit. -/
theorem requestUpdateTrace_some {N : Nat} (g gc : NodeGraph N) (n : Fin N) (dl : List (Fin N))
    (hd : getAllDownstreamNodes g n = some dl) (h1 : cropStep g n = some gc) :
    ∃ tr, requestUpdateTrace g n = some tr
      ∧ tr.afterCrop = gc
      ∧ tr.afterSelf = setNeedsUpdate gc n
      ∧ tr.afterInvalidate = dl.foldl setNeedsUpdate (setNeedsUpdate gc n)
      ∧ tr.afterEmit.nodes = (dl.foldl setNeedsUpdate (setNeedsUpdate gc n)).nodes := by
  obtain ⟨hw1, _, _⟩ := cropStep_some h1
  have hw2 : SameWiring g (setNeedsUpdate gc n) := hw1.trans (setNeedsUpdate_sameWiring gc n)
  have hd2 : getAllDownstreamNodes (setNeedsUpdate gc n) n = some dl := by
    rw [hw2.getAllDownstreamNodes]; exact hd
  unfold cropStep at h1
  unfold requestUpdateTrace
  simp only [h1, invalidateAllDownstreamNodes, hd2]
  refine ⟨_, rfl, rfl, rfl, rfl, ?_⟩
  dsimp only
  split <;> rfl

/-- C12, refuted as stated: the crop node of `cropPanelHuge` lies below a
1920 x 1080 image and its panel shows the integers 2147483647, 0, 2147483647,
0.  `requestUpdate` returns with exactly these margins, and `getTargetSize` is
then 1922 x 1080, since 1920 - 2147483647 - 2147483647 wraps around in 32
bits, whereas `max(0, W - l - r)` is 0. -/
theorem requestUpdate_crop_overflow :
    Acyclic cropPanelHuge
      ∧ (cropPanelHuge.nodes 1).nodeType = NodeType.NODE_TYPE_CROP
      ∧ (cropPanelHuge.nodes 1).widgets
          = [QString.number 2147483647, QString.number 0, QString.number 2147483647,
              QString.number 0]
      ∧ getUpstreamNode cropPanelHuge 1 = some 0
      ∧ (cropPanelHuge.nodes 0).cachedImage = some { width := 1920, height := 1080 }
      ∧ max (0 : Int) (1920 - 2147483647 - 2147483647) = 0
      ∧ ∃ g1, requestUpdate cropPanelHuge 1 = some g1
        ∧ (g1.nodes 1).margins = (2147483647, 0, 2147483647, 0)
        ∧ getTargetSize g1 1 = { width := 1922, height := 1080 } := by
  refine ⟨cropPanelHuge_acyclic, by decide, by decide, by decide, by decide, by decide, ?_⟩
  have h : (requestUpdate cropPanelHuge 1).map
      (fun g1 => ((g1.nodes 1).margins, getTargetSize g1 1))
      = some ((2147483647, 0, 2147483647, 0), { width := 1922, height := 1080 }) := by decide
  cases hr : requestUpdate cropPanelHuge 1 with
  | none => rw [hr] at h; exact absurd h (by simp)
  | some g1 =>
    rw [hr] at h
    simp only [Option.map_some', Option.some.injEq, Prod.mk.injEq] at h
    exact ⟨g1, rfl, h.1, h.2⟩

/-- C12, amended: on an acyclic graph, for a crop node whose property panel
shows four 32-bit integers `l`, `t`, `r`, `b`, `requestUpdate` returns and its
statements act in this order: the state after the crop branch has the margins
`(l, t, r, b)` and every dirty flag as before the call; `needsUpdate = true`
and then the marking of the downstream nodes, one after the other, act on that
state, so the margins are `(l, t, r, b)` in every state in which a node has
been marked; they still are in the state returned, where, when the upstream
node has a cached image of `W` x `H` and the subtractions stay within 32 bits,
`getTargetSize` of the node is `(max(0, W - l - r), max(0, H - t - b))`.  For a
node of another type `requestUpdate` leaves all margins unchanged. -/
theorem requestUpdate_crop_margins {N : Nat} (g : NodeGraph N) (h : Acyclic g) (n : Fin N) :
    (∀ l t r b : Int,
        (g.nodes n).nodeType = NodeType.NODE_TYPE_CROP →
        (g.nodes n).widgets
          = [QString.number l, QString.number t, QString.number r, QString.number b] →
        InInt32 l → InInt32 t → InInt32 r → InInt32 b →
        ∃ tr dl,
          requestUpdateTrace g n = some tr
            ∧ requestUpdate g n = some tr.afterEmit
            ∧ getAllDownstreamNodes g n = some dl
            ∧ (tr.afterCrop.nodes n).margins = (l, t, r, b)
            ∧ (∀ m, (tr.afterCrop.nodes m).needsUpdate = (g.nodes m).needsUpdate)
            ∧ tr.afterSelf = setNeedsUpdate tr.afterCrop n
            ∧ tr.afterInvalidate = dl.foldl setNeedsUpdate tr.afterSelf
            ∧ (∀ k, (((dl.take k).foldl setNeedsUpdate tr.afterSelf).nodes n).margins
                = (l, t, r, b))
            ∧ (tr.afterEmit.nodes n).margins = (l, t, r, b)
            ∧ ∀ (u : Fin N) (img : CsImage),
                getUpstreamNode g n = some u → (g.nodes u).cachedImage = some img →
                InInt32 (img.width - l) → InInt32 (img.width - l - r) →
                InInt32 (img.height - t) → InInt32 (img.height - t - b) →
                getTargetSize tr.afterEmit n
                  = { width := max 0 (img.width - l - r)
                      height := max 0 (img.height - t - b) })
      ∧ ((g.nodes n).nodeType ≠ NodeType.NODE_TYPE_CROP →
          ∃ g1, requestUpdate g n = some g1
            ∧ ∀ m, (g1.nodes m).margins = (g.nodes m).margins) := by
  obtain ⟨hd, _⟩ := getAllDownstreamNodes_spec g h.rgbAcyclic n
  constructor
  · intro l t r b hty hw hl ht hr hb
    obtain ⟨gc, hgc, hmar, himg⟩ := cropStep_four_numbers g n l t r b hty hw hl ht hr hb
    obtain ⟨hw1, hflag, _⟩ := cropStep_some hgc
    obtain ⟨tr, htr, h1, h2, h3, hnodes⟩ := requestUpdateTrace_some g gc n _ hd hgc
    have hret : requestUpdate g n = some tr.afterEmit := by
      rw [requestUpdate_eq_trace, htr]; rfl
    have hmar1 : (tr.afterEmit.nodes n).margins = (l, t, r, b) := by
      rw [hnodes, (marking_keeps_geometry gc n _ n).1, hmar]
    refine ⟨tr, downstreamList g N n, htr, hret, hd, by rw [h1]; exact hmar,
      by rw [h1]; exact hflag, by rw [h2, h1], by rw [h3, h2], ?_, hmar1, ?_⟩
    · intro k
      rw [h2, (marking_keeps_geometry gc n _ n).1, hmar]
    · intro u img hu hi ho1 ho2 ho3 ho4
      have hsw : SameWiring g tr.afterEmit := by
        intro m
        rw [hnodes]
        exact ((hw1.trans (setNeedsUpdate_sameWiring gc n)).trans
          (foldl_setNeedsUpdate_sameWiring _ _)) m
      have hu1 : getUpstreamNode tr.afterEmit n = some u := by
        rw [hsw.getUpstreamNode n]; exact hu
      have hi1 : (tr.afterEmit.nodes u).cachedImage = some img := by
        rw [hnodes, (marking_keeps_geometry gc n _ u).2, himg u]; exact hi
      exact getTargetSize_of_margins tr.afterEmit n u img l t r b hu1 hi1 hmar1 ho1 ho2 ho3 ho4
  · intro hty
    have hgc : cropStep g n = some g := by rw [cropStep, if_neg hty]
    obtain ⟨g1, hg1, hnodes⟩ := requestUpdate_nodes g g n _ hd hgc
    refine ⟨g1, hg1, fun m => ?_⟩
    rw [hnodes, (marking_keeps_geometry g n _ m).1]

/-- C12, amended, on a crop node below a 1920 x 1080 image whose panel shows
100, 50, 100, 50 while its margins are still 0: the margins are (100, 50, 100,
50) after the crop branch, with no node marked yet, and after `requestUpdate`,
where the target size is 1720 x 980. -/
theorem requestUpdate_crop_margins_witness :
    (cropPanelGraph.nodes 1).margins = (0, 0, 0, 0)
      ∧ ∃ tr, requestUpdateTrace cropPanelGraph 1 = some tr
        ∧ requestUpdate cropPanelGraph 1 = some tr.afterEmit
        ∧ (tr.afterCrop.nodes 1).margins = (100, 50, 100, 50)
        ∧ (∀ m, (tr.afterCrop.nodes m).needsUpdate = false)
        ∧ (tr.afterEmit.nodes 1).margins = (100, 50, 100, 50)
        ∧ getTargetSize tr.afterEmit 1 = { width := 1720, height := 980 } := by
  refine ⟨by decide, ?_⟩
  obtain ⟨tr, _, htr, hret, _, hmar0, hflag, _, _, _, hmar, hsize⟩ :=
    (requestUpdate_crop_margins cropPanelGraph cropPanelGraph_acyclic 1).1 100 50 100 50
      (by decide) (by decide) (by decide) (by decide) (by decide) (by decide)
  refine ⟨tr, htr, hret, hmar0, ?_, hmar, ?_⟩
  · intro m
    rw [hflag m]
    revert m
    decide
  · rw [hsize 0 { width := 1920, height := 1080 } (by decide) (by decide) (by decide)
      (by decide) (by decide) (by decide)]
    decide

end Cascade
